import Mathlib

/-!
Verification of the feature/category algebra and the paradigm compiler of the
pynini library (pynini/lib/features.py and pynini/lib/paradigms.py).

The Python classes are embedded shallowly:

* machine strings over the internal alphabet are lists of labels (`Lab`),
  a label being either a raw byte (label id < 256 in the engine) or a
  generated feature marker such as "[case=nom]" (label id >= 256);
* Python dicts are modelled extensionally as association lists kept sorted
  by key (`dictOf` below); Python dict equality is order-independent, so the
  canonical sorted representative makes Lean structural equality coincide
  with Python `==` on dicts;
* fallible constructors (`Feature.__init__`, `Category.__init__`,
  `FeatureVector.__init__`, `Paradigm.__init__`) return `Except PyError _`;
* the external transducer-algebra engine (union, concatenation, composition,
  inversion, projection, path extraction) is not part of the Python sources
  verified here; where its behaviour is needed it is modelled from the
  spec at the level of finite string relations or arc lists, and each such
  definition carries a doc comment saying so.

The feature/value strings handed to `FeatureVector.__init__` ("num=sg") are
modelled pre-split as pairs ("num", "sg"); pynini feature names and values
never contain the separator "=".
-/

namespace Pynini

/-- Errors surfaced by the embedded Python code: `domainError` is a raised
`features.Error` / `paradigms.Error` with its message; `valueError` stands for
a Python builtin error such as the ValueError raised by unpacking an empty
iterable in `_concatstar`; `engineError` stands for an error raised inside the
external transducer engine. -/
inductive PyError where
  | domainError (msg : String)
  | valueError
  | engineError
  deriving DecidableEq

/-- A label of the internal alphabet: a raw byte (engine label id below 256)
or a generated feature marker "[f=v]" (engine label id at least 256). -/
inductive Lab where
  | byte (b : Nat)
  | mark (f v : String)
  deriving DecidableEq

def Lab.isMark : Lab → Bool
  | .byte _ => false
  | .mark _ _ => true

/-- Embeds features.Feature: a name, the list of values (with the default
appended when absent, as `Feature.__init__` does), and the optional default. -/
structure Feature where
  name : String
  values : List String
  default : Option String
  deriving DecidableEq

/-- Python truthiness of `self._default` (`if self._default:`): a `None` or
empty-string default counts as absent. -/
def Feature.hasDefault (f : Feature) : Bool :=
  match f.default with
  | some d => d ≠ ""
  | none => false

/-- Embeds `Feature.__init__`.  The source contains
`Error("No values provided to Feature object")` as a bare expression
statement: the exception object is constructed and immediately discarded, so
no domain error is raised for an empty value list.  With a (truthy) default,
construction then succeeds outright (the default is appended to the values);
without one, `pynini.union` over zero acceptors fails inside the engine. -/
def Feature.init (name : String) (values : List String)
    (default : Option String) : Except PyError Feature :=
  let truthy : Bool := match default with
    | some d => d ≠ ""
    | none => false
  let values' := if truthy then
      (if default.getD "" ∈ values then values else values ++ [default.getD ""])
    else values
  if values'.isEmpty then .error .engineError
  else .ok ⟨name, values', default⟩

/-- Python `Feature.__eq__`: same name and equal value frozensets. -/
def Feature.pyEq (a b : Feature) : Bool :=
  a.name = b.name && a.values.all (· ∈ b.values) && b.values.all (· ∈ a.values)

/-- The language of `Feature.acceptor`: one marker per value. -/
def Feature.markers (f : Feature) : List Lab :=
  f.values.map (Lab.mark f.name)

/-- Stable insertion used to embed Python `sorted(features, key=name)`. -/
def insertByName (f : Feature) : List Feature → List Feature
  | [] => [f]
  | g :: gs => if f.name ≤ g.name then f :: g :: gs else g :: insertByName f gs

/-- Python `sorted` by feature name (stable). -/
def sortFeatures (fs : List Feature) : List Feature :=
  fs.foldr insertByName []

/-- Embeds features.Category: the features, sorted by name at construction. -/
structure Category where
  features : List Feature
  deriving DecidableEq

/-- Embeds `Category.__init__`.  As in `Feature.__init__` the
`Error("No features provided to Category object")` is constructed but not
raised; with zero features the construction instead dies unpacking the empty
iterable in `_concatstar` (`(car, *cdr) = args`), a builtin ValueError. -/
def Category.init (fs : List Feature) : Except PyError Category :=
  if fs.isEmpty then .error .valueError
  else .ok ⟨sortFeatures fs⟩

/-- Elementwise Python `==` on feature lists (list equality calls
`Feature.__eq__` pointwise). -/
def featListEq : List Feature → List Feature → Bool
  | [], [] => true
  | f :: fs, g :: gs => Feature.pyEq f g && featListEq fs gs
  | _, _ => false

/-- Python `Category.__eq__`: equality of the sorted feature lists. -/
def Category.pyEq (a b : Category) : Bool :=
  featListEq a.features b.features

/-- Lookup in an association list, i.e. Python `dict.get`. -/
def dictFind? (m : List (String × String)) (k : String) : Option String :=
  (m.find? (fun p => p.1 = k)).map (·.2)

/-- Insertion into the canonical sorted association list: replaces the value
if the key is present, else inserts keeping keys strictly increasing.  This is
the extensional model of a Python dict assignment `d[k] = v`. -/
def dictInsert (m : List (String × String)) (k v : String) :
    List (String × String) :=
  match m with
  | [] => [(k, v)]
  | (k', v') :: rest =>
    if k = k' then (k, v) :: rest
    else if k < k' then (k, v) :: (k', v') :: rest
    else (k', v') :: dictInsert rest k v

/-- Builds the canonical dict from a list of assignments, later assignments
to the same key overwriting earlier ones, exactly as the Python loop
`for (f, v) in ...: self._values[f] = v` does. -/
def dictOf (l : List (String × String)) : List (String × String) :=
  l.foldl (fun m p => dictInsert m p.1 p.2) []

/-- Keys strictly increasing: the canonical-representative invariant. -/
def dictSorted : List (String × String) → Bool
  | [] => true
  | [_] => true
  | (k, _) :: (k', v') :: rest => k < k' && dictSorted ((k', v') :: rest)

/-- Embeds features.FeatureVector: the category and the (canonical) partial
assignment dict from feature names to values. -/
structure FeatureVector where
  category : Category
  values : List (String × String)
  deriving DecidableEq

/-- Embeds `FeatureVector.__init__`: raises on an empty assignment list, on a
feature name unknown to the category (checked while filling the dict), and,
while assembling the acceptor over the category's features in canonical
order, on a dict value that is not legal for its feature.  Note only the
final dict value for each name is checked: an illegal value overwritten by a
later assignment to the same name escapes the check. -/
def FeatureVector.init (cat : Category) (pairs : List (String × String)) :
    Except PyError FeatureVector :=
  if pairs.isEmpty then .error (.domainError "No features_and_values provided")
  else if pairs.any (fun p => !cat.features.any (fun f => f.name = p.1)) then
    .error (.domainError "Invalid name")
  else
    if cat.features.all (fun f =>
        match dictFind? (dictOf pairs) f.name with
        | some v => v ∈ f.values
        | none => true) then
      .ok ⟨cat, dictOf pairs⟩
    else .error (.domainError "Invalid name")

/-- Python `FeatureVector.__eq__`: category equality and dict equality (the
canonical representation makes the latter plain list equality). -/
def FeatureVector.pyEq (a b : FeatureVector) : Bool :=
  Category.pyEq a.category b.category && a.values = b.values

/-- The invariant established by `FeatureVector.__init__`: a nonempty
canonical dict, every key a feature name of the category, every value legal
for every feature of that name. -/
def FeatureVector.WF (v : FeatureVector) : Bool :=
  !v.values.isEmpty && dictSorted v.values &&
  v.values.all (fun p => v.category.features.any (fun f => f.name = p.1)) &&
  v.category.features.all (fun f =>
    match dictFind? v.values f.name with
    | some w => w ∈ f.values
    | none => true)

/-- Embeds `FeatureVector.unify`: `None` (here `.ok none`) on category
mismatch or on a feature assigned different values by the two sides;
otherwise the merged assignment set is handed back to the constructor (whose
possible exception propagates). -/
def FeatureVector.unify (a b : FeatureVector) :
    Except PyError (Option FeatureVector) :=
  if !Category.pyEq a.category b.category then .ok none
  else if a.values.any (fun p =>
        match dictFind? b.values p.1 with
        | some w => w ≠ p.2
        | none => false) ||
      b.values.any (fun p =>
        match dictFind? a.values p.1 with
        | some w => w ≠ p.2
        | none => false) then .ok none
  else (FeatureVector.init a.category (a.values ++ b.values)).map some

/-- Equality of `unify` results under Python `==`: `None` matches `None`,
vectors are compared with `FeatureVector.__eq__`, equal exceptions match. -/
def unifyResEq (x y : Except PyError (Option FeatureVector)) : Bool :=
  match x, y with
  | .ok none, .ok none => true
  | .ok (some a), .ok (some b) => FeatureVector.pyEq a b
  | .error e, .error e' => e = e'
  | _, _ => false

/-! Basic facts about the canonical dict representation. -/

theorem dictFind?_cons {q : String × String} {m : List (String × String)}
    {k : String} :
    dictFind? (q :: m) k = if q.1 = k then some q.2 else dictFind? m k := by
  by_cases h : q.1 = k
  · rw [if_pos h]
    unfold dictFind?
    rw [List.find?_cons_of_pos _ (by simpa using h)]
    rfl
  · rw [if_neg h]
    unfold dictFind?
    rw [List.find?_cons_of_neg _ (by simpa using h)]

theorem dictSorted_cons_iff {k : String} {v : String}
    {m : List (String × String)} :
    dictSorted ((k, v) :: m) = true ↔
      (∀ p ∈ m, k < p.1) ∧ dictSorted m = true := by
  induction m generalizing k v with
  | nil => simp [dictSorted]
  | cons q rest ih =>
    obtain ⟨k', v'⟩ := q
    have hunf : dictSorted ((k, v) :: (k', v') :: rest) =
        (decide (k < k') && dictSorted ((k', v') :: rest)) := rfl
    constructor
    · intro h
      rw [hunf, Bool.and_eq_true, decide_eq_true_eq] at h
      have hrest := (ih (k := k') (v := v')).mp h.2
      refine ⟨?_, h.2⟩
      intro p hp
      rcases List.mem_cons.mp hp with hp | hp
      · rw [hp]; exact h.1
      · exact lt_trans h.1 (hrest.1 p hp)
    · intro h
      have hk : k < k' := h.1 (k', v') (List.mem_cons_self _ _)
      rw [hunf, Bool.and_eq_true, decide_eq_true_eq]
      exact ⟨hk, h.2⟩

theorem dictFind?_eq_none_of_lt {k : String} {m : List (String × String)}
    (h : ∀ p ∈ m, k < p.1) : dictFind? m k = none := by
  induction m with
  | nil => rfl
  | cons q rest ih =>
    have hq : k < q.1 := h q (List.mem_cons_self _ _)
    have hne : ¬ (q.1 = k) := fun he => absurd (he ▸ hq) (lt_irrefl _)
    rw [dictFind?_cons, if_neg hne]
    exact ih (fun p hp => h p (List.mem_cons_of_mem _ hp))

theorem dictFind?_dictInsert (m : List (String × String)) (k v k' : String) :
    dictFind? (dictInsert m k v) k' =
      if k' = k then some v else dictFind? m k' := by
  induction m with
  | nil =>
    show dictFind? [(k, v)] k' = _
    rw [dictFind?_cons]
    by_cases h : k' = k
    · rw [if_pos h.symm, if_pos h]
    · rw [if_neg (fun he => h he.symm), if_neg h]
  | cons q rest ih =>
    obtain ⟨k0, v0⟩ := q
    show dictFind?
        (if k = k0 then (k, v) :: rest
         else if k < k0 then (k, v) :: (k0, v0) :: rest
         else (k0, v0) :: dictInsert rest k v) k' = _
    by_cases h1 : k = k0
    · subst h1
      rw [if_pos rfl, dictFind?_cons, dictFind?_cons]
      by_cases h : k' = k
      · rw [if_pos h.symm, if_pos h]
      · rw [if_neg (fun he => h he.symm), if_neg h,
          if_neg (fun he => h he.symm)]
    · by_cases h2 : k < k0
      · rw [if_neg h1, if_pos h2, dictFind?_cons]
        by_cases h : k' = k
        · rw [if_pos h.symm, if_pos h]
        · rw [if_neg (fun he => h he.symm), if_neg h]
      · rw [if_neg h1, if_neg h2, dictFind?_cons, dictFind?_cons]
        by_cases h : k0 = k'
        · have hne : ¬ (k' = k) := fun he => h1 ((h.trans he).symm)
          rw [if_pos h, if_neg hne, if_pos h]
        · rw [if_neg h, if_neg h]
          exact ih

theorem mem_dictInsert {p : String × String} {m : List (String × String)}
    {k v : String} (h : p ∈ dictInsert m k v) : p = (k, v) ∨ p ∈ m := by
  induction m with
  | nil => simpa [dictInsert] using h
  | cons q rest ih =>
    obtain ⟨k0, v0⟩ := q
    have h' : p ∈ (if k = k0 then (k, v) :: rest
        else if k < k0 then (k, v) :: (k0, v0) :: rest
        else (k0, v0) :: dictInsert rest k v) := h
    by_cases h1 : k = k0
    · rw [if_pos h1] at h'
      rcases List.mem_cons.mp h' with h' | h'
      · exact Or.inl h'
      · exact Or.inr (List.mem_cons_of_mem _ h')
    · by_cases h2 : k < k0
      · rw [if_neg h1, if_pos h2] at h'
        rcases List.mem_cons.mp h' with h' | h'
        · exact Or.inl h'
        · exact Or.inr h'
      · rw [if_neg h1, if_neg h2] at h'
        rcases List.mem_cons.mp h' with h' | h'
        · exact Or.inr (by rw [h']; exact List.mem_cons_self _ _)
        · rcases ih h' with h' | h'
          · exact Or.inl h'
          · exact Or.inr (List.mem_cons_of_mem _ h')

theorem dictSorted_dictInsert {m : List (String × String)} (k v : String)
    (h : dictSorted m = true) : dictSorted (dictInsert m k v) = true := by
  induction m with
  | nil => simp [dictInsert, dictSorted]
  | cons q rest ih =>
    obtain ⟨k0, v0⟩ := q
    have hc := dictSorted_cons_iff.mp h
    show dictSorted (if k = k0 then (k, v) :: rest
        else if k < k0 then (k, v) :: (k0, v0) :: rest
        else (k0, v0) :: dictInsert rest k v) = true
    by_cases h1 : k = k0
    · rw [if_pos h1]
      exact dictSorted_cons_iff.mpr ⟨fun p hp => h1 ▸ hc.1 p hp, hc.2⟩
    · by_cases h2 : k < k0
      · rw [if_neg h1, if_pos h2]
        refine dictSorted_cons_iff.mpr ⟨?_, h⟩
        intro p hp
        rcases List.mem_cons.mp hp with hp | hp
        · rw [hp]; exact h2
        · exact lt_trans h2 (hc.1 p hp)
      · have hk0 : k0 < k :=
          lt_of_le_of_ne (not_lt.mp h2) (fun he => h1 he.symm)
        rw [if_neg h1, if_neg h2]
        refine dictSorted_cons_iff.mpr ⟨?_, ih hc.2⟩
        intro p hp
        rcases mem_dictInsert hp with hp | hp
        · rw [hp]; exact hk0
        · exact hc.1 p hp

theorem find?_append {α : Type} (l1 l2 : List α) (p : α → Bool) :
    (l1 ++ l2).find? p =
      match l1.find? p with
      | some a => some a
      | none => l2.find? p := by
  induction l1 with
  | nil => simp
  | cons a rest ih =>
    by_cases h : p a = true
    · rw [List.cons_append, List.find?_cons_of_pos _ h,
        List.find?_cons_of_pos _ h]
    · rw [List.cons_append, List.find?_cons_of_neg _ (by simpa using h),
        List.find?_cons_of_neg _ (by simpa using h), ih]

theorem dictFind?_foldl (l : List (String × String))
    (m : List (String × String)) (k : String) :
    dictFind? (l.foldl (fun m p => dictInsert m p.1 p.2) m) k =
      match l.reverse.find? (fun p => p.1 = k) with
      | some p => some p.2
      | none => dictFind? m k := by
  induction l generalizing m with
  | nil => simp
  | cons q rest ih =>
    simp only [List.foldl_cons, List.reverse_cons]
    rw [ih, find?_append]
    cases hf : rest.reverse.find? (fun p => p.1 = k) with
    | none =>
      simp only [hf]
      by_cases h : k = q.1
      · rw [List.find?_cons_of_pos _ (by simpa using h.symm),
          dictFind?_dictInsert, if_pos h]
      · rw [List.find?_cons_of_neg _ (by simpa using fun he => h he.symm),
          dictFind?_dictInsert, if_neg h]
        simp
    | some p => simp only [hf]

theorem dictFind?_dictOf (l : List (String × String)) (k : String) :
    dictFind? (dictOf l) k =
      match l.reverse.find? (fun p => p.1 = k) with
      | some p => some p.2
      | none => none := by
  rw [dictOf, dictFind?_foldl]
  rfl

theorem dictSorted_dictOf (l : List (String × String)) :
    dictSorted (dictOf l) = true := by
  have main : ∀ (l m : List (String × String)), dictSorted m = true →
      dictSorted (l.foldl (fun m p => dictInsert m p.1 p.2) m) = true := by
    intro l
    induction l with
    | nil => intro m hm; simpa
    | cons q rest ih =>
      intro m hm
      exact ih _ (dictSorted_dictInsert _ _ hm)
  exact main l [] rfl

theorem dictFind?_of_mem_sorted {m : List (String × String)}
    {k v : String} (hs : dictSorted m = true) (h : (k, v) ∈ m) :
    dictFind? m k = some v := by
  induction m with
  | nil => cases h
  | cons q rest ih =>
    obtain ⟨k0, v0⟩ := q
    have hc := dictSorted_cons_iff.mp hs
    rcases List.mem_cons.mp h with h | h
    · have h1 : k0 = k := ((Prod.mk.injEq .. ▸ h).1).symm
      have h2 : v0 = v := ((Prod.mk.injEq .. ▸ h).2).symm
      rw [dictFind?_cons, if_pos h1, h2]
    · have hk : k0 < k := hc.1 _ h
      have hne : ¬ (k0 = k) := fun he => absurd (he ▸ hk) (lt_irrefl _)
      rw [dictFind?_cons, if_neg hne]
      exact ih hc.2 h

theorem mem_of_dictFind? {m : List (String × String)} {k v : String}
    (h : dictFind? m k = some v) : (k, v) ∈ m := by
  induction m with
  | nil => cases h
  | cons q rest ih =>
    rw [dictFind?_cons] at h
    by_cases hq : q.1 = k
    · rw [if_pos hq] at h
      have hv : q.2 = v := by injection h
      have : q = (k, v) := by
        obtain ⟨a, b⟩ := q
        simp only [Prod.mk.injEq]
        exact ⟨hq, hv⟩
      rw [← this]
      exact List.mem_cons_self _ _
    · rw [if_neg hq] at h
      exact List.mem_cons_of_mem _ (ih h)

theorem dict_ext {m m' : List (String × String)}
    (hm : dictSorted m = true) (hm' : dictSorted m' = true)
    (h : ∀ k, dictFind? m k = dictFind? m' k) : m = m' := by
  induction m generalizing m' with
  | nil =>
    cases m' with
    | nil => rfl
    | cons q rest =>
      have hq := h q.1
      rw [dictFind?_cons, if_pos rfl] at hq
      exact absurd hq.symm (by simp [dictFind?])
  | cons q rest ih =>
    obtain ⟨k, v⟩ := q
    cases m' with
    | nil =>
      have hq := h k
      rw [dictFind?_cons, if_pos rfl] at hq
      exact absurd hq (by simp [dictFind?])
    | cons q' rest' =>
      obtain ⟨k', v'⟩ := q'
      have hc := dictSorted_cons_iff.mp hm
      have hc' := dictSorted_cons_iff.mp hm'
      have hkv : dictFind? ((k', v') :: rest') k = some v := by
        rw [← h k, dictFind?_cons, if_pos rfl]
      have hkv' : dictFind? ((k, v) :: rest) k' = some v' := by
        rw [h k', dictFind?_cons, if_pos rfl]
      have hkk : k = k' := by
        rcases List.mem_cons.mp (mem_of_dictFind? hkv) with h1 | h1
        · exact (Prod.mk.injEq .. ▸ h1).1
        · rcases List.mem_cons.mp (mem_of_dictFind? hkv') with h2 | h2
          · exact ((Prod.mk.injEq .. ▸ h2).1).symm
          · exact absurd (lt_trans (hc'.1 _ h1) (hc.1 _ h2)) (lt_irrefl _)
      subst hkk
      have hvv : v = v' := by
        rw [dictFind?_cons, if_pos rfl] at hkv
        injection hkv with hvs
        exact hvs.symm
      subst hvv
      have htails : ∀ key, dictFind? rest key = dictFind? rest' key := by
        intro key
        by_cases hk : key = k
        · subst hk
          rw [dictFind?_eq_none_of_lt hc.1, dictFind?_eq_none_of_lt hc'.1]
        · have hkey := h key
          rw [dictFind?_cons, dictFind?_cons,
            if_neg (fun he => hk he.symm),
            if_neg (fun he => hk he.symm)] at hkey
          exact hkey
      rw [ih hc.2 hc'.2 htails]

/-! Facts about Python equality of features, categories and vectors. -/

theorem featPyEq_iff {f g : Feature} :
    Feature.pyEq f g = true ↔
      f.name = g.name ∧ (∀ x ∈ f.values, x ∈ g.values) ∧
        (∀ x ∈ g.values, x ∈ f.values) := by
  simp [Feature.pyEq, Bool.and_eq_true, List.all_eq_true, and_assoc]

theorem featPyEq_refl (f : Feature) : Feature.pyEq f f = true :=
  featPyEq_iff.mpr ⟨rfl, fun _ hx => hx, fun _ hx => hx⟩

theorem featPyEq_symm {f g : Feature} (h : Feature.pyEq f g = true) :
    Feature.pyEq g f = true := by
  obtain ⟨h1, h2, h3⟩ := featPyEq_iff.mp h
  exact featPyEq_iff.mpr ⟨h1.symm, h3, h2⟩

theorem featListEq_refl (fs : List Feature) : featListEq fs fs = true := by
  induction fs with
  | nil => rfl
  | cons f fs ih =>
    simp only [featListEq, Bool.and_eq_true]
    exact ⟨featPyEq_refl f, ih⟩

theorem featListEq_symm {xs ys : List Feature}
    (h : featListEq xs ys = true) : featListEq ys xs = true := by
  induction xs generalizing ys with
  | nil =>
    cases ys with
    | nil => rfl
    | cons g gs => exact absurd h (by simp [featListEq])
  | cons f fs ih =>
    cases ys with
    | nil => exact absurd h (by simp [featListEq])
    | cons g gs =>
      simp only [featListEq, Bool.and_eq_true] at h ⊢
      exact ⟨featPyEq_symm h.1, ih h.2⟩

theorem featListEq_mem {xs ys : List Feature} (h : featListEq xs ys = true)
    {f : Feature} (hf : f ∈ xs) : ∃ g ∈ ys, Feature.pyEq f g = true := by
  induction xs generalizing ys with
  | nil => cases hf
  | cons x xs ih =>
    cases ys with
    | nil => exact absurd h (by simp [featListEq])
    | cons g gs =>
      simp only [featListEq, Bool.and_eq_true] at h
      rcases List.mem_cons.mp hf with hf | hf
      · exact ⟨g, List.mem_cons_self _ _, hf ▸ h.1⟩
      · obtain ⟨g', hg', hpe⟩ := ih h.2 hf
        exact ⟨g', List.mem_cons_of_mem _ hg', hpe⟩

theorem featListEq_names {xs ys : List Feature}
    (h : featListEq xs ys = true) :
    xs.map (fun f => f.name) = ys.map (fun f => f.name) := by
  induction xs generalizing ys with
  | nil =>
    cases ys with
    | nil => rfl
    | cons g gs => exact absurd h (by simp [featListEq])
  | cons f fs ih =>
    cases ys with
    | nil => exact absurd h (by simp [featListEq])
    | cons g gs =>
      simp only [featListEq, Bool.and_eq_true] at h
      simp only [List.map_cons]
      rw [(featPyEq_iff.mp h.1).1, ih h.2]

theorem catPyEq_refl (c : Category) : Category.pyEq c c = true :=
  featListEq_refl c.features

theorem catPyEq_symm {c c' : Category} (h : Category.pyEq c c' = true) :
    Category.pyEq c' c = true := featListEq_symm h

theorem catPyEq_name_any {c c' : Category}
    (h : Category.pyEq c c' = true) {n : String}
    (hn : c'.features.any (fun f => f.name = n) = true) :
    c.features.any (fun f => f.name = n) = true := by
  rw [List.any_eq_true] at hn ⊢
  obtain ⟨g, hg, hgn⟩ := hn
  obtain ⟨f, hf, hpe⟩ := featListEq_mem (featListEq_symm h) hg
  refine ⟨f, hf, ?_⟩
  rw [decide_eq_true_eq] at hgn ⊢
  rw [← (featPyEq_iff.mp hpe).1]
  exact hgn

/-! More dict lemmas: sorted dicts are fixed by dictOf, and merging. -/

theorem find?_reverse_sorted {m : List (String × String)}
    (hs : dictSorted m = true) (k : String) :
    m.reverse.find? (fun p => p.1 = k) = m.find? (fun p => p.1 = k) := by
  induction m with
  | nil => rfl
  | cons q rest ih =>
    obtain ⟨k0, v0⟩ := q
    have hc := dictSorted_cons_iff.mp hs
    rw [List.reverse_cons, find?_append]
    by_cases h : k0 = k
    · have hnone : rest.reverse.find? (fun p => p.1 = k) = none := by
        rw [List.find?_eq_none]
        intro p hp
        have hlt := hc.1 p (List.mem_reverse.mp hp)
        subst h
        simpa using fun he => absurd (he ▸ hlt) (lt_irrefl _)
      rw [hnone, List.find?_cons_of_pos _ (by simpa using h),
        List.find?_cons_of_pos _ (by simpa using h)]
    · have hr : List.find? (fun p => decide (p.1 = k)) ((k0, v0) :: rest) =
          List.find? (fun p => decide (p.1 = k)) rest :=
        List.find?_cons_of_neg rest (by simpa using h)
      rw [hr, ← ih hc.2]
      cases hf : rest.reverse.find? (fun p => p.1 = k) with
      | none =>
        simp only [hf]
        rw [List.find?_cons_of_neg ([] : List (String × String))
          (by simpa using h)]
        rfl
      | some p => simp only [hf]

theorem dictOf_sorted_id {m : List (String × String)}
    (hs : dictSorted m = true) : dictOf m = m := by
  refine dict_ext (dictSorted_dictOf m) hs ?_
  intro k
  rw [dictFind?_dictOf, find?_reverse_sorted hs]
  show _ = (m.find? (fun p => p.1 = k)).map (fun p => p.2)
  cases m.find? (fun p => p.1 = k) with
  | none => rfl
  | some p => rfl

theorem dictOf_append_lookup (m1 m2 : List (String × String))
    (h1 : dictSorted m1 = true) (h2 : dictSorted m2 = true) (k : String) :
    dictFind? (dictOf (m1 ++ m2)) k =
      match dictFind? m2 k with
      | some v => some v
      | none => dictFind? m1 k := by
  rw [dictFind?_dictOf, List.reverse_append, find?_append,
    find?_reverse_sorted h2 k, find?_reverse_sorted h1 k]
  show _ = (match (m2.find? (fun p => p.1 = k)).map (fun p => p.2) with
    | some v => some v
    | none => (m1.find? (fun p => p.1 = k)).map (fun p => p.2))
  cases m2.find? (fun p => p.1 = k) with
  | none =>
    cases m1.find? (fun p => p.1 = k) with
    | none => rfl
    | some p => rfl
  | some p => rfl

/-- Unpacks the constructor invariant of a FeatureVector. -/
theorem wf_unpack {v : FeatureVector} (h : v.WF = true) :
    v.values ≠ [] ∧ dictSorted v.values = true ∧
    (∀ p ∈ v.values, v.category.features.any (fun f => f.name = p.1) = true) ∧
    (∀ f ∈ v.category.features, ∀ w,
      dictFind? v.values f.name = some w → w ∈ f.values) := by
  simp only [FeatureVector.WF, Bool.and_eq_true, Bool.not_eq_true',
    List.all_eq_true] at h
  obtain ⟨⟨⟨hne, hs⟩, hnames⟩, hvals⟩ := h
  refine ⟨?_, hs, hnames, ?_⟩
  · intro he
    rw [he] at hne
    exact absurd hne (by simp)
  · intro f hf w hw
    have := hvals f hf
    rw [hw] at this
    simpa using this

/-- The constructor call made inside `unify` succeeds on the merged
assignment set of two well-formed, conflict-free vectors of Python-equal
categories, producing the merged dict. -/
theorem unify_init_ok {a b : FeatureVector} (ha : a.WF = true)
    (hb : b.WF = true) (hcat : Category.pyEq a.category b.category = true) :
    FeatureVector.init a.category (a.values ++ b.values) =
      .ok ⟨a.category, dictOf (a.values ++ b.values)⟩ := by
  obtain ⟨hane, has, hanm, havl⟩ := wf_unpack ha
  obtain ⟨hbne, hbs, hbnm, hbvl⟩ := wf_unpack hb
  have hne : ((a.values ++ b.values).isEmpty) = false := by
    cases hav : a.values with
    | nil => exact absurd hav hane
    | cons p rest => rfl
  have hnames : ((a.values ++ b.values).any
      (fun p => !a.category.features.any (fun f => f.name = p.1))) = false := by
    rw [List.any_eq_false]
    intro p hp
    rcases List.mem_append.mp hp with hp | hp
    · simp only [Bool.not_eq_true', Bool.not_eq_false]
      exact hanm p hp
    · simp only [Bool.not_eq_true', Bool.not_eq_false]
      exact catPyEq_name_any hcat (hbnm p hp)
  have hvals : (a.category.features.all (fun f =>
      match dictFind? (dictOf (a.values ++ b.values)) f.name with
      | some v => v ∈ f.values
      | none => true)) = true := by
    rw [List.all_eq_true]
    intro f hf
    rw [dictOf_append_lookup _ _ has hbs]
    cases hbf : dictFind? b.values f.name with
    | none =>
      cases haf : dictFind? a.values f.name with
      | none => rfl
      | some v => simpa using havl f hf v haf
    | some v =>
      obtain ⟨g, hg, hpe⟩ := featListEq_mem hcat hf
      have hgn : g.name = f.name := ((featPyEq_iff.mp hpe).1).symm
      have hvg : v ∈ g.values := hbvl g hg v (by rw [hgn]; exact hbf)
      simpa using (featPyEq_iff.mp hpe).2.2 v hvg
  show (if (a.values ++ b.values).isEmpty then _ else _) = _
  rw [if_neg (by rw [hne]; exact Bool.false_ne_true), if_neg (by
    rw [hnames]; exact Bool.false_ne_true)]
  simp only [hvals]
  rw [if_pos trivial]

/-- The conflict test inside `unify` holds exactly when some feature is
assigned different values by the two (well-formed) vectors. -/
theorem unify_conflict_iff {a b : FeatureVector} (ha : a.WF = true)
    (hb : b.WF = true) :
    (a.values.any (fun p =>
        match dictFind? b.values p.1 with
        | some w => w ≠ p.2
        | none => false) ||
      b.values.any (fun p =>
        match dictFind? a.values p.1 with
        | some w => w ≠ p.2
        | none => false)) = true ↔
      ∃ f va vb, dictFind? a.values f = some va ∧
        dictFind? b.values f = some vb ∧ va ≠ vb := by
  obtain ⟨_, has, _, _⟩ := wf_unpack ha
  obtain ⟨_, hbs, _, _⟩ := wf_unpack hb
  rw [Bool.or_eq_true, List.any_eq_true, List.any_eq_true]
  constructor
  · rintro (⟨p, hp, hcond⟩ | ⟨p, hp, hcond⟩)
    · cases hbf : dictFind? b.values p.1 with
      | none => rw [hbf] at hcond; cases hcond
      | some w =>
        rw [hbf] at hcond
        have hwp : w ≠ p.2 := by simpa using hcond
        have hap : dictFind? a.values p.1 = some p.2 :=
          dictFind?_of_mem_sorted has (by simpa using hp)
        exact ⟨p.1, p.2, w, hap, hbf, fun he => hwp he.symm⟩
    · cases haf : dictFind? a.values p.1 with
      | none => rw [haf] at hcond; cases hcond
      | some w =>
        rw [haf] at hcond
        have hwp : w ≠ p.2 := by simpa using hcond
        have hbp : dictFind? b.values p.1 = some p.2 :=
          dictFind?_of_mem_sorted hbs (by simpa using hp)
        exact ⟨p.1, w, p.2, haf, hbp, hwp⟩
  · rintro ⟨f, va, vb, haf, hbf, hne⟩
    left
    refine ⟨(f, va), mem_of_dictFind? haf, ?_⟩
    rw [hbf]
    simpa using fun he => hne he.symm

/-- A well-formed vector is reproduced by handing its own dict back to the
constructor (used for the unify identity law). -/
theorem init_self_ok {a : FeatureVector} (ha : a.WF = true) :
    FeatureVector.init a.category a.values = .ok a := by
  obtain ⟨hane, has, hanm, havl⟩ := wf_unpack ha
  have hne : a.values.isEmpty = false := by
    cases hav : a.values with
    | nil => exact absurd hav hane
    | cons p rest => rfl
  have hnames : (a.values.any
      (fun p => !a.category.features.any (fun f => f.name = p.1))) = false := by
    rw [List.any_eq_false]
    intro p hp
    simp only [Bool.not_eq_true', Bool.not_eq_false]
    exact hanm p hp
  have hvals : (a.category.features.all (fun f =>
      match dictFind? (dictOf a.values) f.name with
      | some v => v ∈ f.values
      | none => true)) = true := by
    rw [List.all_eq_true]
    intro f hf
    rw [dictOf_sorted_id has]
    cases haf : dictFind? a.values f.name with
    | none => rfl
    | some v => simpa using havl f hf v haf
  show (if a.values.isEmpty then _ else _) = _
  rw [if_neg (by rw [hne]; exact Bool.false_ne_true),
    if_neg (by rw [hnames]; exact Bool.false_ne_true)]
  simp only [hvals]
  rw [if_pos trivial, dictOf_sorted_id has]

/-! Concrete fixtures used by witnesses and counterexamples. -/

/-- Fixture: Feature("num", "sg", "pl"). -/
def numFeat : Feature := ⟨"num", ["sg", "pl"], none⟩

/-- Fixture: Feature("case", "nom", "gen"). -/
def caseFeat : Feature := ⟨"case", ["nom", "gen"], none⟩

/-- Fixture: Category(num). -/
def numCat : Category := ⟨[numFeat]⟩

/-- Fixture: Category(case, num), already in canonical name order. -/
def nounCat : Category := ⟨[caseFeat, numFeat]⟩

/-- C3: the claim says constructing a Feature with zero values and a
Category with zero features each raise a domain error.  In the source the
`Error(...)` in both constructors is built but never raised (the `raise`
keyword is missing, unlike in `FeatureVector.__init__`).  Evaluated at the
failing inputs: `Feature("num", default="sg")` with zero values succeeds
outright, returning a usable Feature; `Category()` fails only later, with a
builtin ValueError from unpacking the empty iterable in `_concatstar`, not
with the domain error the claim requires. -/
theorem c3_empty_inputs_do_not_raise_domain_error :
    Feature.init "num" [] (some "sg") = .ok ⟨"num", ["sg"], some "sg"⟩ ∧
    Category.init [] = .error .valueError := by
  constructor
  · rfl
  · rfl

/-- C8 counterexample: the claim says construction raises whenever "some
assigned value is not in the named feature's legal value set".  With the
duplicate assignments ("num", "bad") then ("num", "sg"), the illegal value
"bad" is overwritten in the dict before the legality check runs, and
construction succeeds. -/
theorem c8_counterexample :
    FeatureVector.init numCat [("num", "bad"), ("num", "sg")] =
      .ok ⟨numCat, [("num", "sg")]⟩ ∧
    ¬ ("bad" ∈ numFeat.values) := by
  constructor
  · rfl
  · decide

/-- C8 (amended): FeatureVector construction fails exactly when zero
assignments are given, or some assignment names a feature unknown to the
category, or the value finally recorded in the dict for some feature (the
last assignment to that name) is not in that feature's legal value set. -/
theorem c8_init_error_iff (cat : Category) (pairs : List (String × String)) :
    (∃ e, FeatureVector.init cat pairs = .error e) ↔
      (pairs = [] ∨
        (∃ p ∈ pairs, ∀ f ∈ cat.features, f.name ≠ p.1) ∨
        (∃ f ∈ cat.features, ∃ v,
          dictFind? (dictOf pairs) f.name = some v ∧ v ∉ f.values)) := by
  unfold FeatureVector.init
  by_cases h1 : pairs.isEmpty = true
  · rw [if_pos h1]
    constructor
    · intro _
      exact Or.inl (by simpa using h1)
    · intro _
      exact ⟨_, rfl⟩
  · rw [if_neg h1]
    by_cases h2 : (pairs.any
        (fun p => !cat.features.any (fun f => f.name = p.1))) = true
    · rw [if_pos h2]
      constructor
      · intro _
        refine Or.inr (Or.inl ?_)
        rw [List.any_eq_true] at h2
        obtain ⟨p, hp, hcond⟩ := h2
        refine ⟨p, hp, ?_⟩
        intro f hf
        rw [Bool.not_eq_true', List.any_eq_false] at hcond
        have := hcond f hf
        simpa using this
      · intro _
        exact ⟨_, rfl⟩
    · rw [if_neg h2]
      by_cases h3 : (cat.features.all (fun f =>
          match dictFind? (dictOf pairs) f.name with
          | some v => v ∈ f.values
          | none => true)) = true
      · rw [if_pos h3]
        constructor
        · rintro ⟨e, he⟩
          exact absurd he (by simp)
        · rintro (hc | ⟨p, hp, hc⟩ | ⟨f, hf, v, hv, hnv⟩)
          · rw [hc] at h1
            exact absurd rfl h1
          · refine absurd ?_ h2
            rw [List.any_eq_true]
            refine ⟨p, hp, ?_⟩
            rw [Bool.not_eq_true', List.any_eq_false]
            intro f hf
            simpa using hc f hf
          · rw [List.all_eq_true] at h3
            have := h3 f hf
            rw [hv] at this
            exact absurd (by simpa using this) hnv
      · rw [if_neg h3]
        constructor
        · intro _
          refine Or.inr (Or.inr ?_)
          rw [Bool.not_eq_true, List.all_eq_false] at h3
          obtain ⟨f, hf, hcond⟩ := h3
          refine ⟨f, hf, ?_⟩
          cases hfv : dictFind? (dictOf pairs) f.name with
          | none =>
            rw [hfv] at hcond
            exact absurd rfl hcond
          | some v =>
            rw [hfv] at hcond
            exact ⟨v, rfl, by simpa using hcond⟩
        · intro _
          exact ⟨_, rfl⟩

/-- C6: unify is commutative up to Python FeatureVector equality, and
unifying a well-formed vector with the empty vector of the same category
(a vector value the public constructor itself refuses to build) reproduces
the vector. -/
theorem c6_unify_comm_and_empty_identity (a b : FeatureVector)
    (ha : a.WF = true) (hb : b.WF = true) :
    unifyResEq (a.unify b) (b.unify a) = true ∧
    a.unify ⟨a.category, []⟩ = .ok (some a) := by
  obtain ⟨hane, has, hanm, havl⟩ := wf_unpack ha
  obtain ⟨hbne, hbs, hbnm, hbvl⟩ := wf_unpack hb
  constructor
  · unfold FeatureVector.unify
    by_cases hcat : Category.pyEq a.category b.category = true
    · have hcat' : Category.pyEq b.category a.category = true :=
        catPyEq_symm hcat
      have hA : ¬ ((!Category.pyEq a.category b.category) = true) := by
        rw [hcat]; simp
      have hB : ¬ ((!Category.pyEq b.category a.category) = true) := by
        rw [hcat']; simp
      rw [if_neg hA, if_neg hB]
      by_cases hconf : (a.values.any (fun p =>
            match dictFind? b.values p.1 with
            | some w => w ≠ p.2
            | none => false) ||
          b.values.any (fun p =>
            match dictFind? a.values p.1 with
            | some w => w ≠ p.2
            | none => false)) = true
      · have hconf2 : (b.values.any (fun p =>
              match dictFind? a.values p.1 with
              | some w => w ≠ p.2
              | none => false) ||
            a.values.any (fun p =>
              match dictFind? b.values p.1 with
              | some w => w ≠ p.2
              | none => false)) = true := by
          rw [Bool.or_comm]; exact hconf
        rw [if_pos hconf, if_pos hconf2]
        rfl
      · have hconf2 : ¬ ((b.values.any (fun p =>
              match dictFind? a.values p.1 with
              | some w => w ≠ p.2
              | none => false) ||
            a.values.any (fun p =>
              match dictFind? b.values p.1 with
              | some w => w ≠ p.2
              | none => false)) = true) := by
          rw [Bool.or_comm]; exact hconf
        rw [if_neg hconf, if_neg hconf2]
        rw [unify_init_ok ha hb hcat, unify_init_ok hb ha hcat']
        show FeatureVector.pyEq _ _ = true
        unfold FeatureVector.pyEq
        rw [Bool.and_eq_true]
        refine ⟨hcat, ?_⟩
        rw [decide_eq_true_eq]
        have hnc : ¬ ∃ f va vb, dictFind? a.values f = some va ∧
            dictFind? b.values f = some vb ∧ va ≠ vb := by
          intro hex
          exact hconf ((unify_conflict_iff ha hb).mpr hex)
        refine dict_ext (dictSorted_dictOf _) (dictSorted_dictOf _) ?_
        intro k
        rw [dictOf_append_lookup _ _ has hbs, dictOf_append_lookup _ _ hbs has]
        cases haf : dictFind? a.values k with
        | none => cases hbf : dictFind? b.values k with
          | none => rfl
          | some v => rfl
        | some va => cases hbf : dictFind? b.values k with
          | none => rfl
          | some vb =>
            have : va = vb := by
              by_contra hne
              exact hnc ⟨k, va, vb, haf, hbf, hne⟩
            rw [this]
    · have hcat' : ¬ Category.pyEq b.category a.category = true :=
        fun h => hcat (catPyEq_symm h)
      have hA : (!Category.pyEq a.category b.category) = true := by
        simpa using hcat
      have hB : (!Category.pyEq b.category a.category) = true := by
        simpa using hcat'
      rw [if_pos hA, if_pos hB]
      rfl
  · unfold FeatureVector.unify
    rw [if_neg (by rw [catPyEq_refl]; simp)]
    have hnoconf : ((a.values.any (fun p =>
          match dictFind? ([] : List (String × String)) p.1 with
          | some w => w ≠ p.2
          | none => false)) ||
        (([] : List (String × String)).any (fun p =>
          match dictFind? a.values p.1 with
          | some w => w ≠ p.2
          | none => false))) = false := by
      rw [Bool.or_eq_false_iff]
      constructor
      · rw [List.any_eq_false]
        intro p _
        simp [dictFind?]
      · rfl
    rw [if_neg (by rw [hnoconf]; exact Bool.false_ne_true)]
    rw [List.append_nil, init_self_ok ha]
    rfl

/-- C6 witness: commutativity and the empty-vector identity evaluated on
concrete vectors over the fixture category. -/
theorem c6_witness :
    unifyResEq
      (FeatureVector.unify ⟨nounCat, [("num", "sg")]⟩
        ⟨nounCat, [("case", "nom")]⟩)
      (FeatureVector.unify ⟨nounCat, [("case", "nom")]⟩
        ⟨nounCat, [("num", "sg")]⟩) = true ∧
    FeatureVector.unify ⟨nounCat, [("num", "sg")]⟩ ⟨nounCat, []⟩ =
      .ok (some ⟨nounCat, [("num", "sg")]⟩) :=
  c6_unify_comm_and_empty_identity ⟨nounCat, [("num", "sg")]⟩
    ⟨nounCat, [("case", "nom")]⟩ (by decide) (by decide)

/-- C7: unify returns None exactly on category mismatch or a feature
assigned conflicting values by the two sides; otherwise it returns the
merged assignment, a value specified by either side taking precedence over
absence of a value. -/
theorem c7_unify_none_iff_and_merge (a b : FeatureVector)
    (ha : a.WF = true) (hb : b.WF = true) :
    (a.unify b = .ok none ↔
      ¬ (Category.pyEq a.category b.category = true) ∨
        ∃ f va vb, dictFind? a.values f = some va ∧
          dictFind? b.values f = some vb ∧ va ≠ vb) ∧
    ((Category.pyEq a.category b.category = true) →
      (∀ f va vb, dictFind? a.values f = some va →
        dictFind? b.values f = some vb → va = vb) →
      ∃ c, a.unify b = .ok (some c) ∧
        ∀ k, dictFind? c.values k =
          match dictFind? a.values k with
          | some v => some v
          | none => dictFind? b.values k) := by
  obtain ⟨hane, has, hanm, havl⟩ := wf_unpack ha
  obtain ⟨hbne, hbs, hbnm, hbvl⟩ := wf_unpack hb
  constructor
  · unfold FeatureVector.unify
    by_cases hcat : Category.pyEq a.category b.category = true
    · rw [if_neg (by rw [hcat]; simp)]
      by_cases hconf : (a.values.any (fun p =>
            match dictFind? b.values p.1 with
            | some w => w ≠ p.2
            | none => false) ||
          b.values.any (fun p =>
            match dictFind? a.values p.1 with
            | some w => w ≠ p.2
            | none => false)) = true
      · rw [if_pos hconf]
        constructor
        · intro _
          exact Or.inr ((unify_conflict_iff ha hb).mp hconf)
        · intro _
          rfl
      · rw [if_neg hconf]
        rw [unify_init_ok ha hb hcat]
        constructor
        · intro h
          simp [Except.map] at h
        · rintro (h | h)
          · exact absurd hcat h
          · exact absurd ((unify_conflict_iff ha hb).mpr h) hconf
    · rw [if_pos (by simpa using hcat)]
      constructor
      · intro _
        exact Or.inl hcat
      · intro _
        rfl
  · intro hcat hnc
    have hconf : (a.values.any (fun p =>
          match dictFind? b.values p.1 with
          | some w => w ≠ p.2
          | none => false) ||
        b.values.any (fun p =>
          match dictFind? a.values p.1 with
          | some w => w ≠ p.2
          | none => false)) ≠ true := by
      intro h
      obtain ⟨f, va, vb, haf, hbf, hne⟩ := (unify_conflict_iff ha hb).mp h
      exact hne (hnc f va vb haf hbf)
    refine ⟨⟨a.category, dictOf (a.values ++ b.values)⟩, ?_, ?_⟩
    · unfold FeatureVector.unify
      rw [if_neg (by rw [hcat]; simp), if_neg hconf,
        unify_init_ok ha hb hcat]
      rfl
    · intro k
      show dictFind? (dictOf (a.values ++ b.values)) k = _
      rw [dictOf_append_lookup _ _ has hbs]
      cases haf : dictFind? a.values k with
      | none =>
        cases hbf : dictFind? b.values k with
        | none => rfl
        | some vb => rfl
      | some va =>
        cases hbf : dictFind? b.values k with
        | none => rfl
        | some vb => rw [hnc k va vb haf hbf]

/-- C7 witness: a concrete conflict (case=nom versus case=gen) makes unify
return None. -/
theorem c7_witness :
    FeatureVector.unify ⟨nounCat, [("case", "nom")]⟩
      ⟨nounCat, [("case", "gen")]⟩ = .ok none :=
  ((c7_unify_none_iff_and_merge ⟨nounCat, [("case", "nom")]⟩
      ⟨nounCat, [("case", "gen")]⟩ (by decide) (by decide)).1).mpr
    (Or.inr ⟨"case", "nom", "gen", by decide, by decide, by decide⟩)

/-! The feature filler (Category.__init__, features.py:164-168), modelled at
the level of the finite string relation it denotes. -/

/-- The default marker of a feature under Python truthiness
(`if self._default:` skips None and the empty string). -/
def Feature.defaultMarker? (f : Feature) : Option Lab :=
  match f.default with
  | some d => if d = "" then none else some (Lab.mark f.name d)
  | none => none

/-- Modelled from the spec: concatenation of two transducers denotes the
componentwise concatenation of their (input, output) string pairs; the
external engine's concatenation is not part of the verified sources. -/
def relConcat (r1 r2 : List (List Lab × List Lab)) :
    List (List Lab × List Lab) :=
  r1.flatMap (fun p => r2.map (fun q => (p.1 ++ q.1, p.2 ++ q.2)))

/-- Modelled from the spec: the per-feature transducer
`pynutil.insert(default) | f.acceptor` built in `Category.__init__`, where
`default` is the default acceptor if the feature (truthily) has one and the
full value acceptor otherwise.  `pynutil.insert(a)` maps the empty string to
each string of a's language; an acceptor maps each of its strings to
itself; union is list union. -/
def fillerFactor (f : Feature) : List (List Lab × List Lab) :=
  (match f.defaultMarker? with
   | some d => [(([] : List Lab), [d])]
   | none => f.values.map (fun v => (([] : List Lab), [Lab.mark f.name v]))) ++
  f.values.map (fun v => ([Lab.mark f.name v], [Lab.mark f.name v]))

/-- The relation denoted by `Category.feature_filler`: the per-feature
fillers concatenated in canonical feature order (`_concatstar`). -/
def Category.fillerRel (c : Category) : List (List Lab × List Lab) :=
  c.features.foldl (fun acc f => relConcat acc (fillerFactor f)) [([], [])]

/-- The outputs a relation produces on the empty input string. -/
def epsOuts (r : List (List Lab × List Lab)) : List (List Lab) :=
  r.filterMap (fun p => if p.1 = [] then some p.2 else none)

/-- The completions the feature filler assigns to the empty marker
sequence. -/
def Category.fillEmpty (c : Category) : List (List Lab) :=
  epsOuts c.fillerRel

/-- Pairwise append product of two string lists, enumerating the first list
major. -/
def prodApp (xs ys : List (List Lab)) : List (List Lab) :=
  xs.flatMap (fun x => ys.map (fun y => x ++ y))

/-- The cross-product language of a list of string lists. -/
def crossLists : List (List (List Lab)) → List (List Lab)
  | [] => [[]]
  | l :: rest => prodApp l (crossLists rest)

theorem filterMap_flatMap_law {α β γ : Type} (l : List α) (f : α → List β)
    (g : β → Option γ) :
    (l.flatMap f).filterMap g = l.flatMap (fun a => (f a).filterMap g) := by
  induction l with
  | nil => rfl
  | cons a rest ih =>
    rw [List.flatMap_cons, List.flatMap_cons, List.filterMap_append, ih]

theorem filterMap_eps_map_eps (po : List Lab)
    (r2 : List (List Lab × List Lab)) :
    List.filterMap (fun p => if p.1 = [] then some p.2 else none)
      (r2.map (fun q => (([] : List Lab) ++ q.1, po ++ q.2))) =
      (List.filterMap (fun p => if p.1 = [] then some p.2 else none) r2).map
        (fun y => po ++ y) := by
  induction r2 with
  | nil => rfl
  | cons q rest2 ih2 =>
    rw [List.map_cons, List.filterMap_cons, List.filterMap_cons]
    by_cases hq : q.1 = []
    · rw [if_pos (by rw [List.nil_append]; exact hq), if_pos hq,
        List.map_cons, ih2]
    · rw [if_neg (by rw [List.nil_append]; exact hq), if_neg hq, ih2]

theorem filterMap_eps_map_ne {pi : List Lab} (po : List Lab)
    (hp : pi ≠ []) (r2 : List (List Lab × List Lab)) :
    List.filterMap (fun p => if p.1 = [] then some p.2 else none)
      (r2.map (fun q => (pi ++ q.1, po ++ q.2))) = [] := by
  induction r2 with
  | nil => rfl
  | cons q rest2 ih2 =>
    rw [List.map_cons, List.filterMap_cons]
    rw [if_neg (fun he => hp (List.append_eq_nil.mp he).1)]
    exact ih2

theorem epsOuts_relConcat (r1 r2 : List (List Lab × List Lab)) :
    epsOuts (relConcat r1 r2) = prodApp (epsOuts r1) (epsOuts r2) := by
  induction r1 with
  | nil => rfl
  | cons p rest ih =>
    obtain ⟨pi, po⟩ := p
    have hrc : relConcat ((pi, po) :: rest) r2 =
        r2.map (fun q => (pi ++ q.1, po ++ q.2)) ++ relConcat rest r2 := by
      unfold relConcat
      rw [List.flatMap_cons]
    show epsOuts (relConcat ((pi, po) :: rest) r2) = _
    rw [hrc]
    unfold epsOuts at ih ⊢
    rw [List.filterMap_append, ih, List.filterMap_cons]
    by_cases hp : pi = []
    · subst hp
      rw [if_pos rfl, filterMap_eps_map_eps]
      show _ = prodApp (po :: _) _
      unfold prodApp
      rw [List.flatMap_cons]
    · rw [if_neg hp, filterMap_eps_map_ne po hp, List.nil_append]

theorem prodApp_append_left (xs ys zs : List (List Lab)) :
    prodApp (xs ++ ys) zs = prodApp xs zs ++ prodApp ys zs := by
  unfold prodApp
  rw [List.flatMap_append]

theorem prodApp_map_append (a : List Lab) (ys zs : List (List Lab)) :
    prodApp (ys.map (fun y => a ++ y)) zs =
      (prodApp ys zs).map (fun y => a ++ y) := by
  unfold prodApp
  induction ys with
  | nil => rfl
  | cons y rest ih =>
    rw [List.map_cons, List.flatMap_cons, List.flatMap_cons, List.map_append,
      ih]
    congr 1
    rw [List.map_map]
    refine List.map_congr_left ?_
    intro z _
    show (a ++ y) ++ z = a ++ (y ++ z)
    rw [List.append_assoc]

theorem prodApp_assoc (xs ys zs : List (List Lab)) :
    prodApp (prodApp xs ys) zs = prodApp xs (prodApp ys zs) := by
  induction xs with
  | nil => rfl
  | cons x rest ih =>
    show prodApp (prodApp (x :: rest) ys) zs = _
    have h1 : prodApp (x :: rest) ys =
        ys.map (fun y => x ++ y) ++ prodApp rest ys := by
      unfold prodApp
      rw [List.flatMap_cons]
    rw [h1, prodApp_append_left, prodApp_map_append, ih]
    show _ = prodApp (x :: rest) (prodApp ys zs)
    unfold prodApp
    rw [List.flatMap_cons]

theorem prodApp_nil_left (xs : List (List Lab)) :
    prodApp [[]] xs = xs := by
  unfold prodApp
  rw [List.flatMap_cons, List.flatMap_nil, List.append_nil]
  have h : (fun y => ([] : List Lab) ++ y) = fun y : List Lab => y := by
    funext y
    rw [List.nil_append]
  rw [h]
  exact List.map_id' xs

theorem prodApp_nil_right (xs : List (List Lab)) :
    prodApp xs [[]] = xs := by
  unfold prodApp
  induction xs with
  | nil => rfl
  | cons x rest ih =>
    rw [List.flatMap_cons, ih]
    show ([x ++ []] : List (List Lab)) ++ rest = _
    rw [List.append_nil]
    rfl

/-- The outputs of the filler on the empty input are the cross-product of
the per-feature insertable outputs. -/
theorem fillEmpty_eq (c : Category) :
    c.fillEmpty = crossLists (c.features.map (fun f => epsOuts (fillerFactor f))) := by
  show epsOuts (c.features.foldl (fun acc f => relConcat acc (fillerFactor f))
    [([], [])]) = _
  have main : ∀ (fs : List Feature) (acc : List (List Lab × List Lab)),
      epsOuts (fs.foldl (fun acc f => relConcat acc (fillerFactor f)) acc) =
        prodApp (epsOuts acc)
          (crossLists (fs.map (fun f => epsOuts (fillerFactor f)))) := by
    intro fs
    induction fs with
    | nil =>
      intro acc
      show epsOuts acc = prodApp (epsOuts acc) [[]]
      rw [prodApp_nil_right]
    | cons f fs ih =>
      intro acc
      rw [List.foldl_cons, ih, epsOuts_relConcat, prodApp_assoc]
      rfl
  rw [main c.features [([], [])]]
  have : epsOuts [(([] : List Lab), ([] : List Lab))] = [[]] := rfl
  rw [this, prodApp_nil_left]

theorem filterMap_eps_idpairs (nm : String) (vs : List String) :
    List.filterMap (fun p => if p.1 = [] then some p.2 else none)
      (vs.map (fun v => ([Lab.mark nm v], [Lab.mark nm v]))) = [] := by
  induction vs with
  | nil => rfl
  | cons v rest ih =>
    rw [List.map_cons, List.filterMap_cons, if_neg (by intro he; cases he), ih]

theorem filterMap_eps_inserts (nm : String) (vs : List String) :
    List.filterMap (fun p => if p.1 = [] then some p.2 else none)
      (vs.map (fun v => (([] : List Lab), [Lab.mark nm v]))) =
      vs.map (fun v => [Lab.mark nm v]) := by
  induction vs with
  | nil => rfl
  | cons v rest ih =>
    rw [List.map_cons, List.filterMap_cons, if_pos rfl, List.map_cons, ih]

/-- The per-feature outputs on empty input: the default marker alone when a
default exists, every legal value marker otherwise. -/
theorem epsOuts_fillerFactor (f : Feature) :
    epsOuts (fillerFactor f) =
      match f.defaultMarker? with
      | some d => [[d]]
      | none => f.values.map (fun v => [Lab.mark f.name v]) := by
  unfold fillerFactor epsOuts
  cases hd : f.defaultMarker? with
  | some d =>
    simp only [hd]
    rw [List.singleton_append, List.filterMap_cons, if_pos rfl,
      filterMap_eps_idpairs]
  | none =>
    simp only [hd]
    rw [List.filterMap_append, filterMap_eps_idpairs, List.append_nil,
      filterMap_eps_inserts]

theorem hasDefault_defaultMarker {f : Feature} :
    f.hasDefault = true ↔ ∃ d, f.defaultMarker? = some d := by
  unfold Feature.hasDefault Feature.defaultMarker?
  cases f.default with
  | none => simp
  | some d =>
    by_cases hd : d = ""
    · subst hd
      simp
    · simp [hd]

/-- On a feature list whose members all have defaults, the cross-product of
the per-feature empty-input outputs is the single default concatenation. -/
theorem crossLists_defaults (fs : List Feature)
    (hall : ∀ f ∈ fs, f.hasDefault = true) :
    crossLists (fs.map (fun f => epsOuts (fillerFactor f))) =
      [fs.filterMap (fun f => f.defaultMarker?)] := by
  induction fs with
  | nil => rfl
  | cons f fs ih =>
    obtain ⟨d, hd⟩ := hasDefault_defaultMarker.mp
      (hall f (List.mem_cons_self _ _))
    rw [List.map_cons, List.filterMap_cons, hd]
    show prodApp (epsOuts (fillerFactor f)) _ = _
    rw [epsOuts_fillerFactor, hd, ih (fun g hg => hall g
      (List.mem_cons_of_mem _ hg))]
    show prodApp [[d]] _ = _
    unfold prodApp
    rw [List.flatMap_cons, List.flatMap_nil, List.append_nil, List.map_cons,
      List.map_nil]
    rfl

/-- C5: applied to the empty marker sequence, the feature filler of a
Category in which every feature has a default yields exactly one completion,
namely the defaults' markers concatenated in canonical feature order; for a
Category in which no feature has a default it yields exactly the full
cross-product of all features' legal value markers. -/
theorem c5_filler_on_empty (c : Category) :
    ((∀ f ∈ c.features, f.hasDefault = true) →
      c.fillEmpty = [c.features.filterMap (fun f => f.defaultMarker?)]) ∧
    ((∀ f ∈ c.features, f.hasDefault = false) →
      c.fillEmpty = crossLists (c.features.map
        (fun f => f.values.map (fun v => [Lab.mark f.name v])))) := by
  constructor
  · intro hall
    rw [fillEmpty_eq]
    exact crossLists_defaults c.features hall
  · intro hnone
    rw [fillEmpty_eq]
    congr 1
    refine List.map_congr_left ?_
    intro f hf
    rw [epsOuts_fillerFactor]
    have : f.defaultMarker? = none := by
      cases hd : f.defaultMarker? with
      | none => rfl
      | some d =>
        have : f.hasDefault = true := hasDefault_defaultMarker.mpr ⟨d, hd⟩
        rw [hnone f hf] at this
        cases this
    rw [this]

/-- Fixture: Feature("pers", "1", "2", default="1"). -/
def persFeat : Feature := ⟨"pers", ["1", "2"], some "1"⟩

/-- Fixture: Feature("tense", "prs", "pst", default="prs"). -/
def tenseFeat : Feature := ⟨"tense", ["prs", "pst"], some "prs"⟩

/-- Fixture: Category(pers, tense), all features with defaults. -/
def verbCat : Category := ⟨[persFeat, tenseFeat]⟩

/-- C5 witness: the all-default category fills the empty sequence to the
single default completion; the no-default category fills it to the full
cross-product. -/
theorem c5_witness :
    verbCat.fillEmpty = [[Lab.mark "pers" "1", Lab.mark "tense" "prs"]] ∧
    nounCat.fillEmpty =
      [[Lab.mark "case" "nom", Lab.mark "num" "sg"],
       [Lab.mark "case" "nom", Lab.mark "num" "pl"],
       [Lab.mark "case" "gen", Lab.mark "num" "sg"],
       [Lab.mark "case" "gen", Lab.mark "num" "pl"]] := by
  constructor
  · exact ((c5_filler_on_empty verbCat).1 (by decide)).trans (by rfl)
  · exact ((c5_filler_on_empty nounCat).2 (by decide)).trans (by rfl)

/-! The Paradigm compiler (pynini/lib/paradigms.py).  Slot shapes are
modelled as suffixing transducers (stem followed by an inserted affix that
begins with the boundary symbol), the shape used by the library's own
helpers and tests; stems and affixes are byte strings.  Rewrite rules are
opaque handles (their FSTs belong to the external engine); paradigms that
the relation-level theorems below quantify over carry no rules. -/

/-- A paradigm slot: the affix string the shape inserts after the stem
(typically beginning with the boundary byte), and the slot's vector. -/
structure PSlot where
  affix : List Nat
  fv : FeatureVector
  deriving DecidableEq

/-- The store of Python list objects: a Paradigm holds indices into these
cells.  `list(x)` in the source allocates a new cell; plain attribute
assignment (`self._rules = parent.rules`) shares the parent's cell. -/
structure PHeap where
  slotCells : List (List PSlot)
  ruleCells : List (List Nat)
  deriving DecidableEq

def PHeap.setSlotCell (h : PHeap) (r : Nat) (v : List PSlot) : PHeap :=
  ⟨h.slotCells.set r v, h.ruleCells⟩

def PHeap.setRuleCell (h : PHeap) (r : Nat) (v : List Nat) : PHeap :=
  ⟨h.slotCells, h.ruleCells.set r v⟩

/-- Embeds paradigms.Paradigm's constructed state: the category, the cell
holding the merged slot list, the lemma slot's affix and vector, the
boundary byte, the (possibly parent-shared) rules cell, the stems, the
stems-to-forms relation, and the name. -/
structure Paradigm where
  category : Category
  slotsRef : Nat
  lemmaAffix : List Nat
  lemmaFv : FeatureVector
  boundary : Nat
  rulesRef : Option Nat
  stems : List (List Nat)
  stemsToForms : Option (List (List Lab × List Lab))
  name : Option String
  deriving DecidableEq

/-- The `slots` property: reads the paradigm's slot cell. -/
def Paradigm.slots (p : Paradigm) (h : PHeap) : List PSlot :=
  h.slotCells.getD p.slotsRef []

/-- The `rules` property: reads the (possibly shared) rules cell. -/
def Paradigm.rules (p : Paradigm) (h : PHeap) : Option (List Nat) :=
  p.rulesRef.map (fun r => h.ruleCells.getD r [])

/-- The language of `FeatureVector.acceptor` (features.py:256-266): for each
feature in canonical order, the single assigned marker when the feature is
assigned, else every legal value marker. -/
def FeatureVector.lang (v : FeatureVector) : List (List Lab) :=
  crossLists (v.category.features.map (fun f =>
    match dictFind? v.values f.name with
    | some w => [[Lab.mark f.name w]]
    | none => f.values.map (fun x => [Lab.mark f.name x])))

/-- Modelled from the spec: the string relation of `stems_to_forms`
(paradigms.py:268-276) for a rule-free paradigm — the union of the stems
composed with `shape`, where `shape` is the union over slots of the slot's
suffixing shape concatenated with the insertion of the slot vector's
acceptor.  `pynini.union` of zero stems denotes the empty language, per the
spec's contract that paradigms carry zero or more stems. -/
def stemsToFormsRel (slots : List PSlot) (stems : List (List Nat)) :
    List (List Lab × List Lab) :=
  stems.flatMap (fun st => slots.flatMap (fun s =>
    (s.fv.lang).map (fun ms =>
      (st.map Lab.byte, st.map Lab.byte ++ s.affix.map Lab.byte ++ ms))))

/-- The slot merge of `_inherit` (paradigms.py:312-314): `list.extend`
consumes a generator whose membership test re-reads the list being
extended, so each parent slot is appended only if its vector is absent from
the child's own slots and from the parent slots already appended. -/
def inheritMerge (own parentSlots : List PSlot) : List PSlot :=
  parentSlots.foldl (fun acc ps =>
    if acc.any (fun s => FeatureVector.pyEq ps.fv s.fv) then acc
    else acc ++ [ps]) own

/-- The tail of `Paradigm.__init__` after inheritance: pick the last slot
whose vector Python-equals the lemma vector (the loop at paradigms.py:258-260
overwrites `self._lemma` on every match) or raise; allocate the slot cell;
materialize stems_to_forms. -/
def Paradigm.finish (category : Category) (slots1 : List PSlot)
    (lemmaFv : FeatureVector) (stems : List (List Nat))
    (rulesRef : Option Nat) (name : Option String) (boundary : Nat)
    (h : PHeap) : Except PyError (Paradigm × PHeap) :=
  match (slots1.filter (fun s => FeatureVector.pyEq s.fv lemmaFv)).getLast? with
  | none => .error (.domainError "Lemma form not found in slots")
  | some sl =>
    .ok (⟨category, h.slotCells.length, sl.affix, lemmaFv, boundary, rulesRef,
          stems, some (stemsToFormsRel slots1 stems), name⟩,
         ⟨h.slotCells ++ [slots1], h.ruleCells⟩)

/-- Embeds `Paradigm.__init__` (paradigms.py:193-287): slot-category check,
rules allocation (`list(rules)`) or deferral, inheritance (category and
boundary checks, rules aliasing, slot merge), lemma slot search, slot-cell
allocation and stems_to_forms construction. -/
def Paradigm.init (category : Category) (slots : List PSlot)
    (lemmaFv : FeatureVector) (stems : List (List Nat))
    (rules : Option (List Nat)) (name : Option String) (boundary : Nat)
    (parent : Option Paradigm) (h : PHeap) :
    Except PyError (Paradigm × PHeap) :=
  if slots.any (fun s => !Category.pyEq s.fv.category category) then
    .error (.domainError "Paradigm category != feature vector category")
  else
    match rules with
    | some rs =>
      match parent with
      | some par =>
        if !Category.pyEq category par.category then
          .error (.domainError "Paradigm category != parent paradigm category")
        else if boundary ≠ par.boundary then
          .error (.domainError "Paradigm boundary != parent paradigm boundary")
        else
          Paradigm.finish category (inheritMerge slots (par.slots h)) lemmaFv
            stems (some h.ruleCells.length) name boundary
            ⟨h.slotCells, h.ruleCells ++ [rs]⟩
      | none =>
        Paradigm.finish category slots lemmaFv stems
          (some h.ruleCells.length) name boundary
          ⟨h.slotCells, h.ruleCells ++ [rs]⟩
    | none =>
      match parent with
      | some par =>
        if !Category.pyEq category par.category then
          .error (.domainError "Paradigm category != parent paradigm category")
        else if boundary ≠ par.boundary then
          .error (.domainError "Paradigm boundary != parent paradigm boundary")
        else
          Paradigm.finish category (inheritMerge slots (par.slots h)) lemmaFv
            stems par.rulesRef name boundary h
      | none =>
        Paradigm.finish category slots lemmaFv stems none name boundary h

/-! The derived views, at the level of finite string relations. -/

/-- Deletion of every feature marker (the cdrewrite over
`pynutil.delete(category.feature_labels)`). -/
def delFeats (w : List Lab) : List Lab :=
  w.filter (fun l => !l.isMark)

/-- Deletion of the boundary byte (the boundary deleter cdrewrite). -/
def delBound (bnd : Nat) (w : List Lab) : List Lab :=
  w.filter (fun l => l ≠ Lab.byte bnd)

/-- The `deleter` (paradigms.py:235-238): feature markers deleted, then the
boundary. -/
def deleterApply (bnd : Nat) (w : List Lab) : List Lab :=
  delBound bnd (delFeats w)

/-- Modelled from the spec: relation-level inversion (swap the tapes). -/
def invertRel (r : List (List Lab × List Lab)) : List (List Lab × List Lab) :=
  r.map (fun ab => (ab.2, ab.1))

/-- Modelled from the spec: composition with the boundary deleter applied on
the output tape. -/
def delBoundOut (bnd : Nat) (r : List (List Lab × List Lab)) :
    List (List Lab × List Lab) :=
  r.map (fun ab => (ab.1, delBound bnd ab.2))

/-- `_flip_lemmatizer_feature_labels` (paradigms.py:316-340) at relation
level: every feature marker, inserted on the output tape with an epsilon
input and (by construction) concatenated at the end of the path, is swapped
onto the input tape. -/
def flipRel (r : List (List Lab × List Lab)) : List (List Lab × List Lab) :=
  r.map (fun ab => (ab.1 ++ ab.2.filter Lab.isMark, delFeats ab.2))

/-- The `analyzer` property (paradigms.py:384-397): None when
stems_to_forms is None; else the output projection composed with the
deleter, inverted. -/
def Paradigm.analyzer (p : Paradigm) :
    Option (List (List Lab × List Lab)) :=
  match p.stemsToForms with
  | none => none
  | some r => some (invertRel (r.map (fun ab =>
      (ab.2, deleterApply p.boundary ab.2))))

/-- The lemma transducer applied to a stem (paradigms.py:257-267, rule-free):
the lemma slot's shape output with markers and boundary deleted. -/
def Paradigm.lemmaSurf (p : Paradigm) (st : List Lab) : List Lab :=
  deleterApply p.boundary (st ++ p.lemmaAffix.map Lab.byte)

/-- Modelled from the spec: composition with `self._lemma +
category.feature_labels` (paradigms.py:462-464).  The intermediate string
splits as a marker-free, boundary-free byte string (the lemma transducer's
domain) followed by markers (matched by the feature-label closure); the
byte prefix is mapped through the lemma, the markers pass through. -/
def lemmaFeatCompose (p : Paradigm) (r : List (List Lab × List Lab)) :
    List (List Lab × List Lab) :=
  r.filterMap (fun ab =>
    if (ab.2.dropWhile (fun l => !l.isMark)).all Lab.isMark &&
        (ab.2.takeWhile (fun l => !l.isMark)).all
          (fun l => l ≠ Lab.byte p.boundary) then
      some (ab.1,
        p.lemmaSurf (ab.2.takeWhile (fun l => !l.isMark)) ++
          ab.2.dropWhile (fun l => !l.isMark))
    else none)

/-- The `lemmatizer` property (paradigms.py:442-465): None when
stems_to_forms is None; else flip the feature labels onto the input tape,
delete the boundary on the output tape, invert, and compose with the lemma
transducer concatenated with the feature-label acceptor. -/
def Paradigm.lemmatizer (p : Paradigm) :
    Option (List (List Lab × List Lab)) :=
  match p.stemsToForms with
  | none => none
  | some r =>
    some (lemmaFeatCompose p (invertRel (delBoundOut p.boundary (flipRel r))))

/-- The `inflector` property (paradigms.py:482-489): the inverted
lemmatizer, None when the lemmatizer is None. -/
def Paradigm.inflector (p : Paradigm) :
    Option (List (List Lab × List Lab)) :=
  match p.lemmatizer with
  | none => none
  | some r => some (invertRel r)

/-- `_parse_lattice` (paradigms.py:355-380): split the output labels at the
reserved-range threshold — bytes (label < 256) into the word buffer,
markers into the recovered feature-value pairs, in label order. -/
def parseLabs : List Lab → List Nat × List (String × String)
  | [] => ([], [])
  | .byte b :: rest => ((parseLabs rest).1.cons b, (parseLabs rest).2)
  | .mark f v :: rest => ((parseLabs rest).1, (parseLabs rest).2.cons (f, v))

def bytesOf (w : List Lab) : List Nat :=
  w.filterMap (fun l =>
    match l with
    | .byte b => some b
    | .mark _ _ => none)

/-- `lemmatize` (paradigms.py:467-480): every (string, markers) decoding the
lemmatizer assigns to the word.  (In the source a pathless composition
raises rewrite.Error; here the list is empty — no theorem relies on that
case.) -/
def Paradigm.lemmatize (p : Paradigm) (w : List Nat) :
    List (List Nat × List (String × String)) :=
  match p.lemmatizer with
  | none => []
  | some r => r.filterMap (fun ab =>
      if ab.1 = w.map Lab.byte then some (parseLabs ab.2) else none)

/-- `inflect` (paradigms.py:491-505): the rewrites of
`lemma + featvec.acceptor` through the inflector. -/
def Paradigm.inflect (p : Paradigm) (lemmaStr : List Nat) (fv : FeatureVector) :
    List (List Nat) :=
  match p.inflector with
  | none => []
  | some r => r.filterMap (fun ab =>
      if (fv.lang).any (fun ms => ab.1 = lemmaStr.map Lab.byte ++ ms) then
        some (bytesOf ab.2)
      else none)

/-! List-cell helpers for the heap. -/

theorem getD_concat_length {α : Type} (l : List α) (x d : α) :
    (l ++ [x]).getD l.length d = x := by
  induction l with
  | nil => rfl
  | cons a rest ih => exact ih

theorem getD_set_ne {α : Type} (l : List α) {i j : Nat} (hne : i ≠ j)
    (a d : α) : (l.set i a).getD j d = l.getD j d := by
  induction l generalizing i j with
  | nil => rfl
  | cons b rest ih =>
    cases i with
    | zero =>
      cases j with
      | zero => exact absurd rfl hne
      | succ j => rfl
    | succ i =>
      cases j with
      | zero => rfl
      | succ j => exact ih (fun he => hne (congrArg Nat.succ he))

theorem getD_set_self {α : Type} (l : List α) {i : Nat} (h : i < l.length)
    (a d : α) : (l.set i a).getD i d = a := by
  induction l generalizing i with
  | nil => cases h
  | cons b rest ih =>
    cases i with
    | zero => rfl
    | succ i => exact ih (Nat.lt_of_succ_lt_succ h)

theorem getLast?_ne_none {α : Type} (a : α) (l : List α) :
    (a :: l).getLast? ≠ none := by
  induction l generalizing a with
  | nil => simp
  | cons b rest ih =>
    rw [List.getLast?_cons_cons]
    exact ih b

theorem mem_of_getLast? {α : Type} {l : List α} {a : α}
    (h : l.getLast? = some a) : a ∈ l := by
  induction l with
  | nil => cases h
  | cons b rest ih =>
    cases rest with
    | nil =>
      have hb : b = a := by simpa using h
      rw [hb]
      exact List.mem_cons_self _ _
    | cons c rest2 =>
      rw [List.getLast?_cons_cons] at h
      exact List.mem_cons_of_mem _ (ih h)

/-- A successful `finish` records the given slot list in a fresh cell,
the last lemma-matching slot's affix, and the materialized stems_to_forms
relation. -/
theorem finish_ok_fields {category : Category} {slots1 : List PSlot}
    {lemmaFv : FeatureVector} {stems : List (List Nat)}
    {rulesRef : Option Nat} {name : Option String} {boundary : Nat}
    {h : PHeap} {p : Paradigm} {h' : PHeap}
    (hfin : Paradigm.finish category slots1 lemmaFv stems rulesRef name
      boundary h = .ok (p, h')) :
    p.stemsToForms = some (stemsToFormsRel slots1 stems) ∧
    p.slots h' = slots1 ∧
    p.slotsRef = h.slotCells.length ∧
    h'.slotCells = h.slotCells ++ [slots1] ∧
    h'.ruleCells = h.ruleCells ∧
    p.rulesRef = rulesRef ∧
    (∃ sl, (slots1.filter
        (fun s => FeatureVector.pyEq s.fv lemmaFv)).getLast? = some sl ∧
      p.lemmaAffix = sl.affix) := by
  unfold Paradigm.finish at hfin
  split at hfin
  · exact absurd hfin (by simp)
  · rename_i sl hsl
    rw [Except.ok.injEq, Prod.mk.injEq] at hfin
    obtain ⟨hp, hh⟩ := hfin
    refine ⟨by rw [← hp], ?_, by rw [← hp], by rw [← hh], by rw [← hh],
      by rw [← hp], ⟨sl, hsl, by rw [← hp]⟩⟩
    rw [← hp, ← hh]
    show (h.slotCells ++ [slots1]).getD h.slotCells.length [] = slots1
    exact getD_concat_length _ _ _

theorem finish_error_iff {category : Category} {slots1 : List PSlot}
    {lemmaFv : FeatureVector} {stems : List (List Nat)}
    {rulesRef : Option Nat} {name : Option String} {boundary : Nat}
    {h : PHeap} :
    Paradigm.finish category slots1 lemmaFv stems rulesRef name boundary h =
        .error (.domainError "Lemma form not found in slots") ↔
      ∀ s ∈ slots1, ¬ FeatureVector.pyEq s.fv lemmaFv = true := by
  unfold Paradigm.finish
  cases hl : (slots1.filter
      (fun s => FeatureVector.pyEq s.fv lemmaFv)).getLast? with
  | none =>
    have hnil : slots1.filter (fun s => FeatureVector.pyEq s.fv lemmaFv) = [] := by
      cases hf : slots1.filter (fun s => FeatureVector.pyEq s.fv lemmaFv) with
      | nil => rfl
      | cons a rest =>
        rw [hf] at hl
        exact absurd hl (getLast?_ne_none a rest)
    constructor
    · intro _
      intro s hs hpe
      have : s ∈ slots1.filter (fun s => FeatureVector.pyEq s.fv lemmaFv) :=
        List.mem_filter.mpr ⟨hs, hpe⟩
      rw [hnil] at this
      cases this
    · intro _
      rfl
  | some sl =>
    have hmem := mem_of_getLast? hl
    have hsl := List.mem_filter.mp hmem
    constructor
    · intro he
      exact absurd he (by simp)
    · intro hall
      exact absurd hsl.2 (hall sl hsl.1)

/-! Fixtures for the paradigm claims. -/

/-- Fixture: FeatureVector(numCat, "num=sg"). -/
def fvSg : FeatureVector := ⟨numCat, [("num", "sg")]⟩

/-- Fixture: FeatureVector(numCat, "num=pl"). -/
def fvPl : FeatureVector := ⟨numCat, [("num", "pl")]⟩

/-- Fixture slot: affix "+a" (bytes 43, 97), vector num=pl. -/
def pSlotA : PSlot := ⟨[43, 97], fvPl⟩

/-- Fixture slot: affix "+b", vector num=pl (same vector as pSlotA). -/
def pSlotB : PSlot := ⟨[43, 98], fvPl⟩

/-- Fixture slot: affix "+c", vector num=sg. -/
def cSlotC : PSlot := ⟨[43, 99], fvSg⟩

/-- C2 counterexample: two distinct slots both carry the lemma vector, and
construction nevertheless succeeds, the lemma taking the second (last
matching) slot's affix "+b" — the claim requires failure whenever the lemma
vector equals more than one slot's vector. -/
theorem c2_counterexample :
    Paradigm.init numCat [pSlotA, pSlotB] fvPl [] none none 43 none
        ⟨[], []⟩ =
      .ok (⟨numCat, 0, [43, 98], fvPl, 43, none, [], some [], none⟩,
        ⟨[[pSlotA, pSlotB]], []⟩) ∧
    pSlotA.fv = fvPl ∧ pSlotB.fv = fvPl ∧ pSlotA ≠ pSlotB := by
  refine ⟨?_, rfl, rfl, by decide⟩
  rfl

/-- C2 (amended): for a parent-less paradigm whose slot vectors all belong
to the category, construction raises "Lemma form not found in slots"
exactly when no slot's vector Python-equals the lemma vector; any number of
matching slots (one or several) yields success, with the lemma built from
the last matching slot. -/
theorem c2_lemma_search (category : Category) (slots : List PSlot)
    (lemmaFv : FeatureVector) (stems : List (List Nat))
    (rules : Option (List Nat)) (name : Option String) (boundary : Nat)
    (h : PHeap)
    (hcat : ∀ s ∈ slots, Category.pyEq s.fv.category category = true) :
    (Paradigm.init category slots lemmaFv stems rules name boundary none h =
        .error (.domainError "Lemma form not found in slots") ↔
      ∀ s ∈ slots, ¬ FeatureVector.pyEq s.fv lemmaFv = true) ∧
    (∀ p h', Paradigm.init category slots lemmaFv stems rules name boundary
        none h = .ok (p, h') →
      ∃ sl, (slots.filter
          (fun s => FeatureVector.pyEq s.fv lemmaFv)).getLast? = some sl ∧
        p.lemmaAffix = sl.affix ∧ p.slots h' = slots) := by
  have hany : (slots.any
      (fun s => !Category.pyEq s.fv.category category)) = false := by
    rw [List.any_eq_false]
    intro s hs
    simp only [Bool.not_eq_true', Bool.not_eq_false]
    exact hcat s hs
  have hred : Paradigm.init category slots lemmaFv stems rules name boundary
      none h =
      match rules with
      | some rs => Paradigm.finish category slots lemmaFv stems
          (some h.ruleCells.length) name boundary
          ⟨h.slotCells, h.ruleCells ++ [rs]⟩
      | none => Paradigm.finish category slots lemmaFv stems none name
          boundary h := by
    unfold Paradigm.init
    rw [if_neg (by rw [hany]; exact Bool.false_ne_true)]
  rw [hred]
  cases rules with
  | some rs =>
    exact ⟨finish_error_iff, fun p h' hok =>
      ⟨(finish_ok_fields hok).2.2.2.2.2.2.choose,
        (finish_ok_fields hok).2.2.2.2.2.2.choose_spec.1,
        (finish_ok_fields hok).2.2.2.2.2.2.choose_spec.2,
        (finish_ok_fields hok).2.1⟩⟩
  | none =>
    exact ⟨finish_error_iff, fun p h' hok =>
      ⟨(finish_ok_fields hok).2.2.2.2.2.2.choose,
        (finish_ok_fields hok).2.2.2.2.2.2.choose_spec.1,
        (finish_ok_fields hok).2.2.2.2.2.2.choose_spec.2,
        (finish_ok_fields hok).2.1⟩⟩

/-- C2 witness: the lemma-not-found error on a concrete paradigm whose only
slot does not carry the lemma vector. -/
theorem c2_witness :
    Paradigm.init numCat [pSlotA] fvSg [] none none 43 none ⟨[], []⟩ =
      .error (.domainError "Lemma form not found in slots") :=
  ((c2_lemma_search numCat [pSlotA] fvSg [] none none 43 ⟨[], []⟩
      (by decide)).1).mpr (by decide)

/-- Reference description of the inherited slot list: keep a parent slot
exactly when its vector is Python-equal to no vector seen so far (the
child's own vectors plus the vectors of parent slots already kept). -/
def keepNew : List PSlot → List FeatureVector → List PSlot
  | [], _ => []
  | ps :: rest, seen =>
    if seen.any (fun v => FeatureVector.pyEq ps.fv v) then keepNew rest seen
    else ps :: keepNew rest (seen ++ [ps.fv])

theorem any_fv_map (ps : PSlot) (own : List PSlot) :
    (own.any (fun s => FeatureVector.pyEq ps.fv s.fv)) =
      ((own.map (fun s => s.fv)).any
        (fun v => FeatureVector.pyEq ps.fv v)) := by
  induction own with
  | nil => rfl
  | cons o orest iho =>
    rw [List.any_cons, List.map_cons, List.any_cons, iho]

/-- The live-list `extend` of `_inherit` computes exactly the keepNew
merge. -/
theorem inheritMerge_eq_keepNew (parentSlots : List PSlot)
    (own : List PSlot) :
    inheritMerge own parentSlots =
      own ++ keepNew parentSlots (own.map (fun s => s.fv)) := by
  induction parentSlots generalizing own with
  | nil =>
    show own = own ++ []
    rw [List.append_nil]
  | cons ps rest ih =>
    have hstep : inheritMerge own (ps :: rest) =
        inheritMerge (if (own.any (fun s => FeatureVector.pyEq ps.fv s.fv)) =
            true then own else own ++ [ps]) rest := by
      unfold inheritMerge
      rw [List.foldl_cons]
    rw [hstep]
    by_cases hc : (own.map (fun s => s.fv)).any
        (fun v => FeatureVector.pyEq ps.fv v) = true
    · have hk : keepNew (ps :: rest) (own.map (fun s => s.fv)) =
          keepNew rest (own.map (fun s => s.fv)) := by
        show (if ((own.map (fun s => s.fv)).any
              (fun v => FeatureVector.pyEq ps.fv v)) = true then
            keepNew rest (own.map (fun s => s.fv))
          else ps :: keepNew rest (own.map (fun s => s.fv) ++ [ps.fv])) = _
        rw [if_pos hc]
      rw [if_pos (by rw [any_fv_map]; exact hc), ih own, hk]
    · have hk : keepNew (ps :: rest) (own.map (fun s => s.fv)) =
          ps :: keepNew rest (own.map (fun s => s.fv) ++ [ps.fv]) := by
        show (if ((own.map (fun s => s.fv)).any
              (fun v => FeatureVector.pyEq ps.fv v)) = true then
            keepNew rest (own.map (fun s => s.fv))
          else ps :: keepNew rest (own.map (fun s => s.fv) ++ [ps.fv])) = _
        rw [if_neg hc]
      rw [if_neg (by rw [any_fv_map]; exact hc), ih (own ++ [ps]), hk,
        List.map_append, List.append_assoc]
      rfl

/-- C4 counterexample: the parent carries two distinct slots with the same
vector (num=pl), absent from the child's own slots.  The claim's merge
("exactly those parent slots whose vector is not already present among the
child's slots") keeps both, but the live-list extend keeps only the first:
the built child's slot list is [cSlotC, pSlotA] and pSlotB is dropped. -/
theorem c4_counterexample :
    Paradigm.init numCat [pSlotA, pSlotB] fvPl [] none none 43 none
        ⟨[], []⟩ =
      .ok (⟨numCat, 0, [43, 98], fvPl, 43, none, [], some [], none⟩,
        ⟨[[pSlotA, pSlotB]], []⟩) ∧
    Paradigm.init numCat [cSlotC] fvSg [] none none 43
        (some ⟨numCat, 0, [43, 98], fvPl, 43, none, [], some [], none⟩)
        ⟨[[pSlotA, pSlotB]], []⟩ =
      .ok (⟨numCat, 1, [43, 99], fvSg, 43, none, [], some [], none⟩,
        ⟨[[pSlotA, pSlotB], [cSlotC, pSlotA]], []⟩) ∧
    (⟨numCat, 1, [43, 99], fvSg, 43, none, [], some [], none⟩ :
        Paradigm).slots ⟨[[pSlotA, pSlotB], [cSlotC, pSlotA]], []⟩ =
      [cSlotC, pSlotA] ∧
    pSlotB ∈ (⟨numCat, 0, [43, 98], fvPl, 43, none, [], some [], none⟩ :
        Paradigm).slots ⟨[[pSlotA, pSlotB]], []⟩ ∧
    (¬ FeatureVector.pyEq pSlotB.fv cSlotC.fv = true) ∧
    pSlotB ∉ [cSlotC, pSlotA] := by
  refine ⟨rfl, rfl, rfl, by decide, by decide, by decide⟩

/-- C4 (amended): for a child built with rules=None from a parent, the
child's effective slot list is its own slots followed by exactly those
parent slots whose vector is Python-equal to no vector seen before them
(the child's own vectors and already-kept parent vectors), so child slots
take precedence and same-vector parent slots are kept at most once; the
child's slot cell is freshly allocated, so later mutation of the parent's
slot cell leaves the child's slots unchanged; but the child's rules cell is
the parent's own cell, so an in-place mutation of the parent's rules is
visible through the child. -/
theorem c4_inheritance (category : Category) (own : List PSlot)
    (lemmaFv : FeatureVector) (stems : List (List Nat))
    (name : Option String) (boundary : Nat) (par : Paradigm) (h : PHeap)
    (p : Paradigm) (h' : PHeap)
    (hinit : Paradigm.init category own lemmaFv stems none name boundary
      (some par) h = .ok (p, h'))
    (href : par.slotsRef < h.slotCells.length) :
    p.slots h' = own ++ keepNew (par.slots h) (own.map (fun s => s.fv)) ∧
    (∀ ns, p.slots (h'.setSlotCell par.slotsRef ns) = p.slots h') ∧
    p.rulesRef = par.rulesRef ∧
    (∀ r, par.rulesRef = some r → r < h.ruleCells.length →
      ∀ nr, p.rules (h'.setRuleCell r nr) = some nr) := by
  have hinit' :
      (if (own.any (fun s => !Category.pyEq s.fv.category category)) = true
      then
        (.error (.domainError "Paradigm category != feature vector category")
          : Except PyError (Paradigm × PHeap))
      else if (!Category.pyEq category par.category) = true then
        .error (.domainError "Paradigm category != parent paradigm category")
      else if boundary ≠ par.boundary then
        .error (.domainError "Paradigm boundary != parent paradigm boundary")
      else
        Paradigm.finish category (inheritMerge own (par.slots h)) lemmaFv
          stems par.rulesRef name boundary h) = .ok (p, h') := hinit
  by_cases h1 : (own.any (fun s => !Category.pyEq s.fv.category category)) =
      true
  · rw [if_pos h1] at hinit'
    exact absurd hinit' (by simp)
  rw [if_neg h1] at hinit'
  by_cases h2 : (!Category.pyEq category par.category) = true
  · rw [if_pos h2] at hinit'
    exact absurd hinit' (by simp)
  rw [if_neg h2] at hinit'
  by_cases h3 : boundary ≠ par.boundary
  · rw [if_pos h3] at hinit'
    exact absurd hinit' (by simp)
  rw [if_neg h3] at hinit'
  have hfin := hinit'
  obtain ⟨hstf, hslots, hsref, hcells, hrcells, hrref, -⟩ :=
    finish_ok_fields hfin
  refine ⟨?_, ?_, hrref, ?_⟩
  · rw [hslots, inheritMerge_eq_keepNew]
  · intro ns
    have hne : par.slotsRef ≠ p.slotsRef := by
      rw [hsref]
      exact Nat.ne_of_lt href
    show (h'.slotCells.set par.slotsRef ns).getD p.slotsRef [] = _
    rw [getD_set_ne _ hne]
    rfl
  · intro r hr hlt nr
    show p.rulesRef.map
      (fun rr => (h'.setRuleCell r nr).ruleCells.getD rr []) = some nr
    rw [hrref, hr]
    show some ((h'.ruleCells.set r nr).getD r []) = some nr
    rw [hrcells, getD_set_self _ hlt]

/-- C4 witness: the amended inheritance law evaluated on a concrete parent
carrying a rules cell; the merge result, the immunity of the child's slots
to parent slot mutation, and the visibility of parent rule mutation are all
checked concretely. -/
theorem c4_witness :
    (⟨numCat, 1, [43, 99], fvSg, 43, some 0, [], some [], none⟩ :
        Paradigm).slots ⟨[[pSlotA, pSlotB], [cSlotC, pSlotA]], [[7]]⟩ =
      [cSlotC] ++ keepNew
        ((⟨numCat, 0, [43, 98], fvPl, 43, some 0, [], some [], none⟩ :
          Paradigm).slots ⟨[[pSlotA, pSlotB]], [[7]]⟩)
        ([cSlotC].map (fun s => s.fv)) ∧
    (∀ ns, (⟨numCat, 1, [43, 99], fvSg, 43, some 0, [], some [], none⟩ :
        Paradigm).slots
        ((⟨[[pSlotA, pSlotB], [cSlotC, pSlotA]], [[7]]⟩ :
          PHeap).setSlotCell 0 ns) =
      (⟨numCat, 1, [43, 99], fvSg, 43, some 0, [], some [], none⟩ :
        Paradigm).slots ⟨[[pSlotA, pSlotB], [cSlotC, pSlotA]], [[7]]⟩) ∧
    (⟨numCat, 1, [43, 99], fvSg, 43, some 0, [], some [], none⟩ :
        Paradigm).rulesRef =
      (⟨numCat, 0, [43, 98], fvPl, 43, some 0, [], some [], none⟩ :
        Paradigm).rulesRef ∧
    (∀ r, (⟨numCat, 0, [43, 98], fvPl, 43, some 0, [], some [], none⟩ :
        Paradigm).rulesRef = some r →
      r < ([[7]] : List (List Nat)).length →
      ∀ nr, (⟨numCat, 1, [43, 99], fvSg, 43, some 0, [], some [], none⟩ :
          Paradigm).rules
          ((⟨[[pSlotA, pSlotB], [cSlotC, pSlotA]], [[7]]⟩ :
            PHeap).setRuleCell r nr) = some nr) :=
  c4_inheritance numCat [cSlotC] fvSg [] none 43
    ⟨numCat, 0, [43, 98], fvPl, 43, some 0, [], some [], none⟩
    ⟨[[pSlotA, pSlotB]], [[7]]⟩
    ⟨numCat, 1, [43, 99], fvSg, 43, some 0, [], some [], none⟩
    ⟨[[pSlotA, pSlotB], [cSlotC, pSlotA]], [[7]]⟩
    rfl (by decide)

/-- C9 counterexample: a Paradigm constructed with zero stems.  Its
stems_to_forms field is the materialized empty-language relation, never
None, so the analyzer and lemmatizer properties return (empty-language)
automata rather than the None the claim requires. -/
theorem c9_counterexample :
    Paradigm.init numCat [pSlotA] fvPl [] none none 43 none ⟨[], []⟩ =
      .ok (⟨numCat, 0, [43, 97], fvPl, 43, none, [], some [], none⟩,
        ⟨[[pSlotA]], []⟩) ∧
    (⟨numCat, 0, [43, 97], fvPl, 43, none, [], some [], none⟩ :
        Paradigm).stems = [] ∧
    (⟨numCat, 0, [43, 97], fvPl, 43, none, [], some [], none⟩ :
        Paradigm).analyzer = some [] ∧
    (⟨numCat, 0, [43, 97], fvPl, 43, none, [], some [], none⟩ :
        Paradigm).lemmatizer = some [] :=
  ⟨rfl, rfl, rfl, rfl⟩

/-- C9 (amended): every successfully constructed Paradigm — those with zero
stems included — has a materialized (possibly empty-language)
stems_to_forms, so the analyzer and lemmatizer properties never return
None; the None guard in the source (reachable only if stems_to_forms were
None) is dead code. -/
theorem c9_views_never_none (category : Category) (slots : List PSlot)
    (lemmaFv : FeatureVector) (stems : List (List Nat))
    (rules : Option (List Nat)) (name : Option String) (boundary : Nat)
    (parent : Option Paradigm) (h : PHeap) (p : Paradigm) (h' : PHeap)
    (hinit : Paradigm.init category slots lemmaFv stems rules name boundary
      parent h = .ok (p, h')) :
    p.stemsToForms ≠ none ∧ p.analyzer ≠ none ∧ p.lemmatizer ≠ none := by
  have hstf : ∃ r, p.stemsToForms = some r := by
    unfold Paradigm.init at hinit
    split at hinit
    · exact absurd hinit (by simp)
    · split at hinit
      · split at hinit
        · split at hinit
          · exact absurd hinit (by simp)
          · split at hinit
            · exact absurd hinit (by simp)
            · exact ⟨_, (finish_ok_fields hinit).1⟩
        · exact ⟨_, (finish_ok_fields hinit).1⟩
      · split at hinit
        · split at hinit
          · exact absurd hinit (by simp)
          · split at hinit
            · exact absurd hinit (by simp)
            · exact ⟨_, (finish_ok_fields hinit).1⟩
        · exact ⟨_, (finish_ok_fields hinit).1⟩
  obtain ⟨r, hr⟩ := hstf
  refine ⟨by rw [hr]; simp, ?_, ?_⟩
  · unfold Paradigm.analyzer
    rw [hr]
    simp
  · unfold Paradigm.lemmatizer
    rw [hr]
    simp

/-- C9 witness: the amended law applied to the concrete no-stem paradigm. -/
theorem c9_witness :
    (⟨numCat, 0, [43, 97], fvPl, 43, none, [], some [], none⟩ :
        Paradigm).stemsToForms ≠ none ∧
    (⟨numCat, 0, [43, 97], fvPl, 43, none, [], some [], none⟩ :
        Paradigm).analyzer ≠ none ∧
    (⟨numCat, 0, [43, 97], fvPl, 43, none, [], some [], none⟩ :
        Paradigm).lemmatizer ≠ none :=
  c9_views_never_none numCat [pSlotA] fvPl [] none none 43 none ⟨[], []⟩
    ⟨numCat, 0, [43, 97], fvPl, 43, none, [], some [], none⟩
    ⟨[[pSlotA]], []⟩ rfl

/-! Infrastructure for the round-trip law (C1). -/

/-- The canonical marker sequence of a (fully specified) vector: one marker
per assigned category feature, in canonical order. -/
def canonSeq (v : FeatureVector) : List Lab :=
  v.category.features.filterMap (fun f =>
    (dictFind? v.values f.name).map (fun w => Lab.mark f.name w))

/-- The feature-value pairs recovered from the canonical marker sequence. -/
def canonPairs (v : FeatureVector) : List (String × String) :=
  v.category.features.filterMap (fun f =>
    (dictFind? v.values f.name).map (fun w => (f.name, w)))

/-- The surface form a slot realizes on a stem: stem then affix, boundary
deleted. -/
def surfaceBytes (p : Paradigm) (st : List Nat) (s : PSlot) : List Nat :=
  st ++ s.affix.filter (fun b => b ≠ p.boundary)

/-- The lemma surface form of a stem: stem then lemma affix, boundary
deleted. -/
def lemmaBytes (p : Paradigm) (st : List Nat) : List Nat :=
  st ++ p.lemmaAffix.filter (fun b => b ≠ p.boundary)

theorem canonSeq_marks (v : FeatureVector) :
    ∀ l ∈ canonSeq v, l.isMark = true := by
  unfold canonSeq
  intro l hl
  obtain ⟨f, -, hf⟩ := List.mem_filterMap.mp hl
  cases hw : dictFind? v.values f.name with
  | none => rw [hw] at hf; cases hf
  | some w =>
    rw [hw] at hf
    have : Lab.mark f.name w = l := by simpa using hf
    rw [← this]
    rfl

theorem filter_isMark_map_byte (bs : List Nat) :
    (bs.map Lab.byte).filter Lab.isMark = [] := by
  induction bs with
  | nil => rfl
  | cons b rest ih =>
    rw [List.map_cons, List.filter_cons_of_neg (by simp [Lab.isMark]), ih]

theorem filter_isMark_all {ms : List Lab}
    (h : ∀ l ∈ ms, l.isMark = true) : ms.filter Lab.isMark = ms := by
  induction ms with
  | nil => rfl
  | cons m rest ih =>
    rw [List.filter_cons_of_pos (h m (List.mem_cons_self _ _)),
      ih (fun l hl => h l (List.mem_cons_of_mem _ hl))]

theorem delFeats_map_byte (bs : List Nat) :
    delFeats (bs.map Lab.byte) = bs.map Lab.byte := by
  unfold delFeats
  induction bs with
  | nil => rfl
  | cons b rest ih => rw [List.map_cons, List.filter_cons_of_pos (by rfl), ih]

theorem delFeats_all_marks {ms : List Lab}
    (h : ∀ l ∈ ms, l.isMark = true) : delFeats ms = [] := by
  unfold delFeats
  induction ms with
  | nil => rfl
  | cons m rest ih =>
    rw [List.filter_cons_of_neg (by
        rw [h m (List.mem_cons_self _ _)]
        simp),
      ih (fun l hl => h l (List.mem_cons_of_mem _ hl))]

theorem delBound_map_byte (bnd : Nat) (bs : List Nat) :
    delBound bnd (bs.map Lab.byte) =
      (bs.filter (fun b => b ≠ bnd)).map Lab.byte := by
  unfold delBound
  induction bs with
  | nil => rfl
  | cons b rest ih =>
    by_cases hb : b = bnd
    · rw [List.map_cons, List.filter_cons_of_neg (by simp [hb]),
        List.filter_cons_of_neg (by simp [hb]), ih]
    · rw [List.map_cons, List.filter_cons_of_pos (by simp [hb]),
        List.filter_cons_of_pos (by simp [hb]), List.map_cons, ih]

theorem delBound_map_byte_free (bnd : Nat) (bs : List Nat)
    (h : ∀ b ∈ bs, b ≠ bnd) :
    delBound bnd (bs.map Lab.byte) = bs.map Lab.byte := by
  rw [delBound_map_byte]
  congr 1
  induction bs with
  | nil => rfl
  | cons b rest ih =>
    rw [List.filter_cons_of_pos (by simp [h b (List.mem_cons_self _ _)]),
      ih (fun x hx => h x (List.mem_cons_of_mem _ hx))]

theorem takeWhile_bytes_marks (bs : List Nat) {ms : List Lab}
    (hne : ms ≠ []) (hm : ∀ l ∈ ms, l.isMark = true) :
    (bs.map Lab.byte ++ ms).takeWhile (fun l => !l.isMark) = bs.map Lab.byte ∧
    (bs.map Lab.byte ++ ms).dropWhile (fun l => !l.isMark) = ms := by
  induction bs with
  | nil =>
    cases ms with
    | nil => exact absurd rfl hne
    | cons m rest =>
      have hmm : m.isMark = true := hm m (List.mem_cons_self _ _)
      constructor
      · show (m :: rest).takeWhile (fun l => !l.isMark) = []
        rw [List.takeWhile_cons, hmm]
        rfl
      · show (m :: rest).dropWhile (fun l => !l.isMark) = m :: rest
        rw [List.dropWhile_cons, hmm]
        rfl
  | cons b rest ih =>
    constructor
    · show ((Lab.byte b :: (rest.map Lab.byte ++ ms)).takeWhile
        (fun l => !l.isMark)) = Lab.byte b :: rest.map Lab.byte
      rw [List.takeWhile_cons]
      show (if true then _ else _) = _
      rw [if_pos rfl, ih.1]
    · show ((Lab.byte b :: (rest.map Lab.byte ++ ms)).dropWhile
        (fun l => !l.isMark)) = ms
      rw [List.dropWhile_cons]
      show (if true then _ else _) = _
      rw [if_pos rfl, ih.2]

theorem parseLabs_bytes_prefix (bs : List Nat) (w : List Lab) :
    parseLabs (bs.map Lab.byte ++ w) =
      (bs ++ (parseLabs w).1, (parseLabs w).2) := by
  induction bs with
  | nil => rfl
  | cons b rest ih =>
    show parseLabs (Lab.byte b :: (rest.map Lab.byte ++ w)) = _
    have hr : parseLabs (Lab.byte b :: (rest.map Lab.byte ++ w)) =
        ((parseLabs (rest.map Lab.byte ++ w)).1.cons b,
         (parseLabs (rest.map Lab.byte ++ w)).2) := rfl
    rw [hr, ih]
    rfl

theorem parseLabs_canonSeq_aux (fs : List Feature)
    (vals : List (String × String)) :
    parseLabs (fs.filterMap (fun f =>
        (dictFind? vals f.name).map (fun w => Lab.mark f.name w))) =
      ([], fs.filterMap (fun f =>
        (dictFind? vals f.name).map (fun w => (f.name, w)))) := by
  induction fs with
  | nil => rfl
  | cons f rest ih =>
    rw [List.filterMap_cons, List.filterMap_cons]
    cases hw : dictFind? vals f.name with
    | none => exact ih
    | some w =>
      show parseLabs (Lab.mark f.name w :: rest.filterMap (fun f =>
          (dictFind? vals f.name).map (fun w => Lab.mark f.name w))) = _
      have hr : parseLabs (Lab.mark f.name w :: rest.filterMap (fun f =>
          (dictFind? vals f.name).map (fun w => Lab.mark f.name w))) =
          ((parseLabs (rest.filterMap (fun f =>
            (dictFind? vals f.name).map (fun w => Lab.mark f.name w)))).1,
           (parseLabs (rest.filterMap (fun f =>
            (dictFind? vals f.name).map
              (fun w => Lab.mark f.name w)))).2.cons (f.name, w)) := rfl
      rw [hr, ih]
      rfl

theorem parseLabs_canonSeq (v : FeatureVector) :
    parseLabs (canonSeq v) = ([], canonPairs v) :=
  parseLabs_canonSeq_aux v.category.features v.values

theorem bytesOf_map_byte (bs : List Nat) :
    bytesOf (bs.map Lab.byte) = bs := by
  unfold bytesOf
  induction bs with
  | nil => rfl
  | cons b rest ih => rw [List.map_cons, List.filterMap_cons, ih]

theorem append_bytes_marks_inj {bs bs' : List Nat} {ms ms' : List Lab}
    (hm : ∀ l ∈ ms, l.isMark = true) (hm' : ∀ l ∈ ms', l.isMark = true)
    (he : bs.map Lab.byte ++ ms = bs'.map Lab.byte ++ ms') :
    bs = bs' ∧ ms = ms' := by
  induction bs generalizing bs' with
  | nil =>
    cases bs' with
    | nil => exact ⟨rfl, by simpa using he⟩
    | cons b' rest' =>
      exfalso
      have hh : ms = Lab.byte b' :: (rest'.map Lab.byte ++ ms') := by
        simpa using he
      have := hm (Lab.byte b') (by rw [hh]; exact List.mem_cons_self _ _)
      cases this
  | cons b rest ih =>
    cases bs' with
    | nil =>
      exfalso
      have hh : ms' = Lab.byte b :: (rest.map Lab.byte ++ ms) := by
        simpa using he.symm
      have := hm' (Lab.byte b) (by rw [hh]; exact List.mem_cons_self _ _)
      cases this
    | cons b' rest' =>
      rw [List.map_cons, List.map_cons, List.cons_append,
        List.cons_append] at he
      injection he with h1 h2
      injection h1 with hb
      obtain ⟨hr, hms⟩ := ih h2
      exact ⟨by rw [hb, hr], hms⟩

theorem flatMap_eq_nil_all {α β : Type} (L : List α) (F : α → List β)
    (h : ∀ a ∈ L, F a = []) : L.flatMap F = [] := by
  induction L with
  | nil => rfl
  | cons a rest ih =>
    rw [List.flatMap_cons, h a (List.mem_cons_self _ _),
      ih (fun x hx => h x (List.mem_cons_of_mem _ hx)), List.nil_append]

theorem flatMap_eq_single {α β : Type} (L : List α) (hnd : L.Nodup)
    (F : α → List β) (a₀ : α) (ha : a₀ ∈ L) (c : β) (h1 : F a₀ = [c])
    (h2 : ∀ a ∈ L, a ≠ a₀ → F a = []) : L.flatMap F = [c] := by
  induction L with
  | nil => cases ha
  | cons a rest ih =>
    rw [List.flatMap_cons]
    rcases List.mem_cons.mp ha with ha0 | ha0
    · have hFa : F a = [c] := by rw [← ha0]; exact h1
      rw [hFa]
      have hrest : rest.flatMap F = [] := by
        refine flatMap_eq_nil_all rest F ?_
        intro x hx
        refine h2 x (List.mem_cons_of_mem _ hx) ?_
        intro hxa
        refine (List.nodup_cons.mp hnd).1 ?_
        rw [← hxa.trans ha0]
        exact hx
      rw [hrest, List.append_nil]
    · have hne : a ≠ a₀ := by
        intro hh
        exact (List.nodup_cons.mp hnd).1 (hh ▸ ha0)
      rw [h2 a (List.mem_cons_self _ _) hne, List.nil_append]
      exact ih (List.nodup_cons.mp hnd).2 ha0
        (fun x hx hne' => h2 x (List.mem_cons_of_mem _ hx) hne')

theorem flatMap_congr_fn {α β : Type} {l : List α} {f g : α → List β}
    (h : ∀ a ∈ l, f a = g a) : l.flatMap f = l.flatMap g := by
  induction l with
  | nil => rfl
  | cons a rest ih =>
    rw [List.flatMap_cons, List.flatMap_cons, h a (List.mem_cons_self _ _),
      ih (fun x hx => h x (List.mem_cons_of_mem _ hx))]

theorem lang_aux (vals : List (String × String)) (fs : List Feature)
    (hfull : ∀ f ∈ fs, (dictFind? vals f.name).isSome = true) :
    crossLists (fs.map (fun f =>
        match dictFind? vals f.name with
        | some w => [[Lab.mark f.name w]]
        | none => f.values.map (fun x => [Lab.mark f.name x]))) =
      [fs.filterMap (fun f =>
        (dictFind? vals f.name).map (fun w => Lab.mark f.name w))] := by
  induction fs with
  | nil => rfl
  | cons f rest ih =>
    cases hw : dictFind? vals f.name with
    | none =>
      have h1 := hfull f (List.mem_cons_self _ _)
      rw [hw] at h1
      cases h1
    | some w =>
      rw [List.map_cons, List.filterMap_cons, hw]
      show prodApp [[Lab.mark f.name w]] _ = _
      rw [ih (fun g hg => hfull g (List.mem_cons_of_mem _ hg))]
      unfold prodApp
      rw [List.flatMap_cons, List.flatMap_nil, List.append_nil,
        List.map_cons, List.map_nil]
      rfl

/-- A fully specified vector's acceptor language is the one canonical
marker sequence. -/
theorem lang_fully_specified (v : FeatureVector)
    (hfull : ∀ f ∈ v.category.features,
      (dictFind? v.values f.name).isSome = true) :
    v.lang = [canonSeq v] :=
  lang_aux v.values v.category.features hfull

theorem canonSeq_ne_nil {v : FeatureVector} (hne : v.category.features ≠ [])
    (hfull : ∀ f ∈ v.category.features,
      (dictFind? v.values f.name).isSome = true) :
    canonSeq v ≠ [] := by
  unfold canonSeq
  cases hfs : v.category.features with
  | nil => exact absurd hfs hne
  | cons f rest =>
    intro hc
    have h1 := hfull f (by rw [hfs]; exact List.mem_cons_self _ _)
    cases hw : dictFind? v.values f.name with
    | none => rw [hw] at h1; cases h1
    | some w =>
      rw [List.filterMap_cons, hw] at hc
      simp at hc

theorem canonSeq_aux_inj (fs : List Feature)
    (vals vals' : List (String × String))
    (hf : ∀ f ∈ fs, (dictFind? vals f.name).isSome = true)
    (hf' : ∀ f ∈ fs, (dictFind? vals' f.name).isSome = true)
    (he : fs.filterMap (fun f =>
        (dictFind? vals f.name).map (fun w => Lab.mark f.name w)) =
      fs.filterMap (fun f =>
        (dictFind? vals' f.name).map (fun w => Lab.mark f.name w))) :
    ∀ f ∈ fs, dictFind? vals f.name = dictFind? vals' f.name := by
  induction fs with
  | nil =>
    intro f hf0
    cases hf0
  | cons g rest ih =>
    cases hw : dictFind? vals g.name with
    | none =>
      have h1 := hf g (List.mem_cons_self _ _)
      rw [hw] at h1
      cases h1
    | some w =>
      cases hw' : dictFind? vals' g.name with
      | none =>
        have h1 := hf' g (List.mem_cons_self _ _)
        rw [hw'] at h1
        cases h1
      | some w' =>
        rw [List.filterMap_cons, List.filterMap_cons, hw, hw'] at he
        have he' : Lab.mark g.name w :: rest.filterMap (fun f =>
            (dictFind? vals f.name).map (fun w => Lab.mark f.name w)) =
            Lab.mark g.name w' :: rest.filterMap (fun f =>
              (dictFind? vals' f.name).map (fun w => Lab.mark f.name w)) :=
          he
        injection he' with h1 h2
        intro f hf0
        rcases List.mem_cons.mp hf0 with hf0 | hf0
        · rw [hf0, hw, hw']
          injection h1 with hn hv
          rw [hv]
        · exact ih (fun x hx => hf x (List.mem_cons_of_mem _ hx))
            (fun x hx => hf' x (List.mem_cons_of_mem _ hx)) h2 f hf0

/-- Two fully specified, well-formed vectors over the same category with
the same canonical marker sequence have the same assignment dict. -/
theorem canonSeq_values_eq {v v' : FeatureVector}
    (hc : v'.category = v.category) (hwv : v.WF = true) (hwv' : v'.WF = true)
    (hf : ∀ f ∈ v.category.features,
      (dictFind? v.values f.name).isSome = true)
    (hf' : ∀ f ∈ v.category.features,
      (dictFind? v'.values f.name).isSome = true)
    (he : canonSeq v' = canonSeq v) : v'.values = v.values := by
  have he2 : v.category.features.filterMap (fun f =>
      (dictFind? v'.values f.name).map (fun w => Lab.mark f.name w)) =
      v.category.features.filterMap (fun f =>
        (dictFind? v.values f.name).map (fun w => Lab.mark f.name w)) := by
    have hc' : canonSeq v' = v.category.features.filterMap (fun f =>
        (dictFind? v'.values f.name).map (fun w => Lab.mark f.name w)) := by
      unfold canonSeq
      rw [hc]
    rw [← hc', he]
    rfl
  have hlk := canonSeq_aux_inj v.category.features v'.values v.values hf' hf
    he2
  obtain ⟨-, hs, hkeys, -⟩ := wf_unpack hwv
  obtain ⟨-, hs', hkeys', -⟩ := wf_unpack hwv'
  refine dict_ext hs' hs ?_
  intro k
  by_cases hk : ∃ f ∈ v.category.features, f.name = k
  · obtain ⟨f, hfm, hfk⟩ := hk
    rw [← hfk]
    exact hlk f hfm
  · have h1 : dictFind? v.values k = none := by
      cases hvk : dictFind? v.values k with
      | none => rfl
      | some w =>
        have hmem := mem_of_dictFind? hvk
        have := hkeys (k, w) hmem
        rw [List.any_eq_true] at this
        obtain ⟨f, hfm, hfk⟩ := this
        exact absurd ⟨f, hfm, by simpa using hfk⟩ hk
    have h2 : dictFind? v'.values k = none := by
      cases hvk : dictFind? v'.values k with
      | none => rfl
      | some w =>
        have hmem := mem_of_dictFind? hvk
        have := hkeys' (k, w) hmem
        rw [hc, List.any_eq_true] at this
        obtain ⟨f, hfm, hfk⟩ := this
        exact absurd ⟨f, hfm, by simpa using hfk⟩ hk
    rw [h1, h2]

theorem canonPairs_mem {v : FeatureVector} {pr : String × String}
    (h : pr ∈ canonPairs v) :
    dictFind? v.values pr.1 = some pr.2 ∧
      ∃ f ∈ v.category.features, f.name = pr.1 := by
  unfold canonPairs at h
  obtain ⟨f, hfm, hf⟩ := List.mem_filterMap.mp h
  cases hw : dictFind? v.values f.name with
  | none => rw [hw] at hf; cases hf
  | some w =>
    rw [hw] at hf
    have : (f.name, w) = pr := by simpa using hf
    rw [← this]
    exact ⟨hw, f, hfm, rfl⟩

theorem canonPairs_name_mem {v : FeatureVector}
    (hfull : ∀ f ∈ v.category.features,
      (dictFind? v.values f.name).isSome = true)
    {f : Feature} (hfm : f ∈ v.category.features) :
    ∃ w, (f.name, w) ∈ canonPairs v := by
  cases hw : dictFind? v.values f.name with
  | none =>
    have h1 := hfull f hfm
    rw [hw] at h1
    cases h1
  | some w =>
    refine ⟨w, ?_⟩
    unfold canonPairs
    refine List.mem_filterMap.mpr ⟨f, hfm, ?_⟩
    rw [hw]
    rfl

/-- Rebuilding the dict from the canonical pairs of a fully specified,
well-formed vector recovers its assignment dict. -/
theorem dictOf_canonPairs {v : FeatureVector} (hwv : v.WF = true)
    (hfull : ∀ f ∈ v.category.features,
      (dictFind? v.values f.name).isSome = true) :
    dictOf (canonPairs v) = v.values := by
  obtain ⟨-, hs, hkeys, -⟩ := wf_unpack hwv
  refine dict_ext (dictSorted_dictOf _) hs ?_
  intro k
  rw [dictFind?_dictOf]
  cases hfnd : (canonPairs v).reverse.find? (fun p => p.1 = k) with
  | some pr =>
    have hpm : pr ∈ canonPairs v :=
      List.mem_reverse.mp (List.mem_of_find?_eq_some hfnd)
    have hprk : pr.1 = k := by
      have := List.find?_some hfnd
      simpa using this
    have := (canonPairs_mem hpm).1
    rw [hprk] at this
    rw [this]
  | none =>
    have hnone : ∀ pr ∈ canonPairs v, pr.1 ≠ k := by
      intro pr hpr
      have := List.find?_eq_none.mp hfnd pr (List.mem_reverse.mpr hpr)
      simpa using this
    cases hvk : dictFind? v.values k with
    | none => rfl
    | some w =>
      exfalso
      have hmem := mem_of_dictFind? hvk
      have hany := hkeys (k, w) hmem
      rw [List.any_eq_true] at hany
      obtain ⟨f, hfm, hfk⟩ := hany
      have hfk' : f.name = k := by simpa using hfk
      obtain ⟨w', hw'⟩ := canonPairs_name_mem hfull hfm
      exact hnone (f.name, w') hw' hfk'

theorem delFeats_append (x y : List Lab) :
    delFeats (x ++ y) = delFeats x ++ delFeats y :=
  List.filter_append ..

theorem delBound_append (bnd : Nat) (x y : List Lab) :
    delBound bnd (x ++ y) = delBound bnd x ++ delBound bnd y :=
  List.filter_append ..

theorem all_ne_boundary (bnd : Nat) (bs : List Nat)
    (h : ∀ b ∈ bs, b ≠ bnd) :
    ((bs.map Lab.byte).all (fun l => l ≠ Lab.byte bnd)) = true := by
  rw [List.all_eq_true]
  intro l hl
  obtain ⟨b, hb, hbe⟩ := List.mem_map.mp hl
  rw [← hbe]
  simpa using h b hb

theorem lemmaSurf_bytes (p : Paradigm) (st' : List Nat)
    (hb : ∀ b ∈ st', b ≠ p.boundary) :
    p.lemmaSurf (st'.map Lab.byte) =
      (st' ++ p.lemmaAffix.filter (fun b => b ≠ p.boundary)).map Lab.byte := by
  unfold Paradigm.lemmaSurf deleterApply
  rw [delFeats_append, delFeats_map_byte, delFeats_map_byte,
    delBound_append, delBound_map_byte_free p.boundary st' hb,
    delBound_map_byte, List.map_append]

/-- The lemmatizer pipeline distributes over a union (flatMap) of
machines. -/
theorem pipeline_flatMap {α : Type} (p : Paradigm) (xs : List α)
    (F : α → List (List Lab × List Lab)) :
    lemmaFeatCompose p (invertRel (delBoundOut p.boundary
        (flipRel (xs.flatMap F)))) =
      xs.flatMap (fun x => lemmaFeatCompose p (invertRel (delBoundOut
        p.boundary (flipRel (F x))))) := by
  unfold lemmaFeatCompose invertRel delBoundOut flipRel
  rw [List.map_flatMap, List.map_flatMap, List.map_flatMap,
    filterMap_flatMap_law]

/-- The lemmatizer pipeline on a single stems-to-forms pair: the stem with
the markers flipped in maps to the surface form, and the composition with
the lemma and feature labels replaces the stem by the lemma surface. -/
theorem lem_element (p : Paradigm) (st' aff : List Nat) (ms : List Lab)
    (hb : ∀ b ∈ st', b ≠ p.boundary) (hmne : ms ≠ [])
    (hma : ∀ l ∈ ms, l.isMark = true) :
    lemmaFeatCompose p (invertRel (delBoundOut p.boundary (flipRel
        [(st'.map Lab.byte,
          st'.map Lab.byte ++ aff.map Lab.byte ++ ms)]))) =
      [((st' ++ aff.filter (fun b => b ≠ p.boundary)).map Lab.byte,
        (st' ++ p.lemmaAffix.filter (fun b => b ≠ p.boundary)).map Lab.byte
          ++ ms)] := by
  have hfm : (st'.map Lab.byte ++ aff.map Lab.byte ++ ms).filter Lab.isMark
      = ms := by
    rw [List.append_assoc, List.filter_append, List.filter_append,
      filter_isMark_map_byte, filter_isMark_map_byte, filter_isMark_all hma]
    rfl
  have hdf : delFeats (st'.map Lab.byte ++ aff.map Lab.byte ++ ms) =
      st'.map Lab.byte ++ aff.map Lab.byte := by
    rw [List.append_assoc, delFeats_append, delFeats_append,
      delFeats_map_byte, delFeats_map_byte, delFeats_all_marks hma,
      List.append_nil]
  have h1 : flipRel [(st'.map Lab.byte,
      st'.map Lab.byte ++ aff.map Lab.byte ++ ms)] =
      [(st'.map Lab.byte ++ ms,
        st'.map Lab.byte ++ aff.map Lab.byte)] := by
    unfold flipRel
    rw [List.map_cons, List.map_nil, hfm, hdf]
  rw [h1]
  have h2 : delBoundOut p.boundary [(st'.map Lab.byte ++ ms,
      st'.map Lab.byte ++ aff.map Lab.byte)] =
      [(st'.map Lab.byte ++ ms,
        (st' ++ aff.filter (fun b => b ≠ p.boundary)).map Lab.byte)] := by
    unfold delBoundOut
    rw [List.map_cons, List.map_nil, delBound_append,
      delBound_map_byte_free p.boundary st' hb, delBound_map_byte,
      List.map_append]
  rw [h2]
  have h3 : invertRel [(st'.map Lab.byte ++ ms,
      (st' ++ aff.filter (fun b => b ≠ p.boundary)).map Lab.byte)] =
      [((st' ++ aff.filter (fun b => b ≠ p.boundary)).map Lab.byte,
        st'.map Lab.byte ++ ms)] := by
    unfold invertRel
    rw [List.map_cons, List.map_nil]
  rw [h3]
  obtain ⟨htw, hdw⟩ := takeWhile_bytes_marks st' hmne hma
  have hall1 : ms.all Lab.isMark = true :=
    List.all_eq_true.mpr (fun l hl => by simpa using hma l hl)
  have hall2 := all_ne_boundary p.boundary st' hb
  unfold lemmaFeatCompose
  rw [List.filterMap_cons, List.filterMap_nil]
  simp only [htw, hdw, hall1, hall2, Bool.and_self, eq_self_iff_true,
    if_true]
  rw [lemmaSurf_bytes p st' hb]

theorem filterMap_singleton {α β : Type} (f : α → Option β) (a : α) :
    [a].filterMap f = match f a with | none => [] | some b => [b] := by
  rw [List.filterMap_cons, List.filterMap_nil]
  cases f a with
  | none => rfl
  | some b => rfl

theorem map_byte_inj {xs ys : List Nat}
    (h : xs.map Lab.byte = ys.map Lab.byte) : xs = ys := by
  induction xs generalizing ys with
  | nil =>
    cases ys with
    | nil => rfl
    | cons y ys => cases h
  | cons x rest ih =>
    cases ys with
    | nil => cases h
    | cons y ys =>
      rw [List.map_cons, List.map_cons] at h
      injection h with h1 h2
      injection h1 with hxy
      rw [hxy, ih h2]

/-- Handing the canonical pairs of a fully specified well-formed vector to
the constructor rebuilds the vector. -/
theorem init_canonPairs_ok {v : FeatureVector} (hwv : v.WF = true)
    (hne : v.category.features ≠ [])
    (hfull : ∀ f ∈ v.category.features,
      (dictFind? v.values f.name).isSome = true) :
    FeatureVector.init v.category (canonPairs v) =
      .ok ⟨v.category, v.values⟩ := by
  obtain ⟨-, -, -, hvals⟩ := wf_unpack hwv
  have hpne : (canonPairs v).isEmpty = false := by
    cases hfs : v.category.features with
    | nil => exact absurd hfs hne
    | cons f rest =>
      obtain ⟨w, hw⟩ := canonPairs_name_mem hfull
        (by rw [hfs]; exact List.mem_cons_self _ _)
      cases hcp : canonPairs v with
      | nil => rw [hcp] at hw; cases hw
      | cons q qs => rfl
  have hnames : ((canonPairs v).any (fun pr =>
      !v.category.features.any (fun f => f.name = pr.1))) = false := by
    rw [List.any_eq_false]
    intro pr hpr
    obtain ⟨-, f, hfm, hfn⟩ := canonPairs_mem hpr
    simp only [Bool.not_eq_true', Bool.not_eq_false]
    rw [List.any_eq_true]
    exact ⟨f, hfm, by simpa using hfn⟩
  have hleg : (v.category.features.all (fun f =>
      match dictFind? (dictOf (canonPairs v)) f.name with
      | some w => w ∈ f.values
      | none => true)) = true := by
    rw [List.all_eq_true]
    intro f hf
    rw [dictOf_canonPairs hwv hfull]
    cases hw : dictFind? v.values f.name with
    | none => rfl
    | some w => simpa using hvals f hf w hw
  show (if (canonPairs v).isEmpty then _ else _) = _
  rw [if_neg (by rw [hpne]; exact Bool.false_ne_true),
    if_neg (by rw [hnames]; exact Bool.false_ne_true)]
  simp only [hleg]
  rw [if_pos trivial, dictOf_canonPairs hwv hfull]

/-- C1: the round-trip law.  For a rule-free Paradigm with unambiguous
affixation — distinct (stem, slot) pairs realize distinct surface forms,
distinct slots carry distinct (fully specified) vectors — lemmatizing a
surface form yields exactly its lemma surface with the slot's
feature-vector markers, the recovered markers rebuild the slot's
FeatureVector through the constructor, and inflecting that (lemma, vector)
pair reproduces exactly the original surface form. -/
theorem c1_round_trip (p : Paradigm) (slots : List PSlot)
    (hfeat : p.category.features ≠ [])
    (hstf : p.stemsToForms = some (stemsToFormsRel slots p.stems))
    (hnds : p.stems.Nodup) (hndsl : slots.Nodup)
    (hbfree : ∀ st ∈ p.stems, ∀ b ∈ st, b ≠ p.boundary)
    (hcat : ∀ s ∈ slots, s.fv.category = p.category)
    (hwf : ∀ s ∈ slots, s.fv.WF = true)
    (hfull : ∀ s ∈ slots, ∀ f ∈ p.category.features,
      (dictFind? s.fv.values f.name).isSome = true)
    (hinj : ∀ st ∈ p.stems, ∀ s ∈ slots, ∀ st' ∈ p.stems, ∀ s' ∈ slots,
      surfaceBytes p st s = surfaceBytes p st' s' → st = st' ∧ s = s')
    (hfvinj : ∀ s ∈ slots, ∀ s' ∈ slots,
      FeatureVector.pyEq s.fv s'.fv = true → s = s')
    (st : List Nat) (hst : st ∈ p.stems) (s : PSlot) (hs : s ∈ slots) :
    p.lemmatize (surfaceBytes p st s) =
      [(lemmaBytes p st, canonPairs s.fv)] ∧
    FeatureVector.init p.category (canonPairs s.fv) =
      .ok ⟨p.category, s.fv.values⟩ ∧
    FeatureVector.pyEq ⟨p.category, s.fv.values⟩ s.fv = true ∧
    p.inflect (lemmaBytes p st) s.fv = [surfaceBytes p st s] := by
  have hfullv : ∀ s' ∈ slots, ∀ f ∈ s'.fv.category.features,
      (dictFind? s'.fv.values f.name).isSome = true := by
    intro s' hs'
    rw [hcat s' hs']
    exact hfull s' hs'
  have hlang : ∀ s' ∈ slots, s'.fv.lang = [canonSeq s'.fv] :=
    fun s' hs' => lang_fully_specified s'.fv (hfullv s' hs')
  have hmne : ∀ s' ∈ slots, canonSeq s'.fv ≠ [] := by
    intro s' hs'
    refine canonSeq_ne_nil ?_ (hfullv s' hs')
    rw [hcat s' hs']
    exact hfeat
  have hstf2 : stemsToFormsRel slots p.stems = p.stems.flatMap (fun st' =>
      slots.flatMap (fun s' =>
        [(st'.map Lab.byte,
          st'.map Lab.byte ++ s'.affix.map Lab.byte ++ canonSeq s'.fv)])) := by
    unfold stemsToFormsRel
    refine flatMap_congr_fn (fun st' hst' => ?_)
    refine flatMap_congr_fn (fun s' hs' => ?_)
    rw [hlang s' hs', List.map_cons, List.map_nil]
  have hlem : p.lemmatizer = some (p.stems.flatMap (fun st' =>
      slots.flatMap (fun s' =>
        [((st' ++ s'.affix.filter (fun b => b ≠ p.boundary)).map Lab.byte,
          (st' ++ p.lemmaAffix.filter (fun b => b ≠ p.boundary)).map Lab.byte
            ++ canonSeq s'.fv)]))) := by
    unfold Paradigm.lemmatizer
    rw [hstf]
    show some _ = some _
    congr 1
    rw [hstf2, pipeline_flatMap]
    refine flatMap_congr_fn (fun st' hst' => ?_)
    rw [pipeline_flatMap]
    refine flatMap_congr_fn (fun s' hs' => ?_)
    exact lem_element p st' s'.affix (canonSeq s'.fv)
      (hbfree st' hst') (hmne s' hs') (canonSeq_marks s'.fv)
  have hlemz : p.lemmatize (surfaceBytes p st s) =
      [(lemmaBytes p st, canonPairs s.fv)] := by
    unfold Paradigm.lemmatize
    rw [hlem]
    show (p.stems.flatMap _).filterMap _ = _
    rw [filterMap_flatMap_law]
    refine flatMap_eq_single p.stems hnds _ st hst _ ?_ ?_
    · rw [filterMap_flatMap_law]
      refine flatMap_eq_single slots hndsl _ s hs _ ?_ ?_
      · rw [filterMap_singleton]
        have hge : (if ((st ++ s.affix.filter (fun b => b ≠ p.boundary)).map
              Lab.byte : List Lab) = (surfaceBytes p st s).map Lab.byte then
              some (parseLabs ((st ++ p.lemmaAffix.filter
                (fun b => b ≠ p.boundary)).map Lab.byte ++ canonSeq s.fv))
            else none) = some (lemmaBytes p st, canonPairs s.fv) := by
          unfold surfaceBytes lemmaBytes
          rw [if_pos rfl, parseLabs_bytes_prefix]
          simp only [parseLabs_canonSeq, List.append_nil]
        rw [hge]
      · intro s'' hs'' hne
        rw [filterMap_singleton]
        have hcne : ¬ (((st ++ s''.affix.filter
            (fun b => b ≠ p.boundary)).map Lab.byte : List Lab) =
            (surfaceBytes p st s).map Lab.byte) := by
          intro he
          have heq : surfaceBytes p st s'' = surfaceBytes p st s :=
            map_byte_inj he
          exact hne ((hinj st hst s'' hs'' st hst s hs heq).2.symm ▸ rfl)
        have hgn : (if ((st ++ s''.affix.filter
              (fun b => b ≠ p.boundary)).map Lab.byte : List Lab) =
              (surfaceBytes p st s).map Lab.byte then
              some (parseLabs ((st ++ p.lemmaAffix.filter
                (fun b => b ≠ p.boundary)).map Lab.byte ++ canonSeq s''.fv))
            else none) = none := by
          rw [if_neg hcne]
        rw [hgn]
    · intro st'' hst'' hne
      rw [filterMap_flatMap_law]
      refine flatMap_eq_nil_all _ _ (fun s'' hs'' => ?_)
      rw [filterMap_singleton]
      have hcne : ¬ (((st'' ++ s''.affix.filter
          (fun b => b ≠ p.boundary)).map Lab.byte : List Lab) =
          (surfaceBytes p st s).map Lab.byte) := by
        intro he
        have heq : surfaceBytes p st'' s'' = surfaceBytes p st s :=
          map_byte_inj he
        exact hne (hinj st'' hst'' s'' hs'' st hst s hs heq).1
      have hgn : (if ((st'' ++ s''.affix.filter
            (fun b => b ≠ p.boundary)).map Lab.byte : List Lab) =
            (surfaceBytes p st s).map Lab.byte then
            some (parseLabs ((st'' ++ p.lemmaAffix.filter
              (fun b => b ≠ p.boundary)).map Lab.byte ++ canonSeq s''.fv))
          else none) = none := by
        rw [if_neg hcne]
      rw [hgn]
  have hwfs := hwf s hs
  have hfulls := hfullv s hs
  have hinitc : FeatureVector.init p.category (canonPairs s.fv) =
      .ok ⟨p.category, s.fv.values⟩ := by
    rw [← hcat s hs]
    exact init_canonPairs_ok hwfs (by rw [hcat s hs]; exact hfeat) hfulls
  have hpyeq : FeatureVector.pyEq ⟨p.category, s.fv.values⟩ s.fv = true := by
    unfold FeatureVector.pyEq
    rw [Bool.and_eq_true]
    constructor
    · show Category.pyEq p.category s.fv.category = true
      rw [hcat s hs]
      exact catPyEq_refl _
    · simp
  have hinfl : p.inflect (lemmaBytes p st) s.fv = [surfaceBytes p st s] := by
    unfold Paradigm.inflect Paradigm.inflector
    rw [hlem]
    show (invertRel (p.stems.flatMap _)).filterMap _ = _
    have hswap : invertRel (p.stems.flatMap (fun st' =>
        slots.flatMap (fun s' =>
          [((st' ++ s'.affix.filter (fun b => b ≠ p.boundary)).map Lab.byte,
            (st' ++ p.lemmaAffix.filter (fun b => b ≠ p.boundary)).map
              Lab.byte ++ canonSeq s'.fv)]))) =
        p.stems.flatMap (fun st' => slots.flatMap (fun s' =>
          [((st' ++ p.lemmaAffix.filter (fun b => b ≠ p.boundary)).map
              Lab.byte ++ canonSeq s'.fv,
            (st' ++ s'.affix.filter (fun b => b ≠ p.boundary)).map
              Lab.byte)])) := by
      unfold invertRel
      rw [List.map_flatMap]
      refine flatMap_congr_fn (fun st' _ => ?_)
      rw [List.map_flatMap]
      refine flatMap_congr_fn (fun s' _ => ?_)
      rw [List.map_cons, List.map_nil]
    rw [hswap, filterMap_flatMap_law]
    refine flatMap_eq_single p.stems hnds _ st hst _ ?_ ?_
    · rw [filterMap_flatMap_law]
      refine flatMap_eq_single slots hndsl _ s hs _ ?_ ?_
      · rw [filterMap_singleton]
        have hge : (if (s.fv.lang).any (fun ms =>
              ((st ++ p.lemmaAffix.filter (fun b => b ≠ p.boundary)).map
                Lab.byte ++ canonSeq s.fv : List Lab) =
              (lemmaBytes p st).map Lab.byte ++ ms) then
              some (bytesOf ((st ++ s.affix.filter
                (fun b => b ≠ p.boundary)).map Lab.byte))
            else none) = some (surfaceBytes p st s) := by
          rw [hlang s hs, List.any_cons, List.any_nil, Bool.or_false]
          unfold lemmaBytes surfaceBytes
          rw [if_pos (decide_eq_true rfl), bytesOf_map_byte]
        rw [hge]
      · intro s'' hs'' hne
        rw [filterMap_singleton]
        have hgn : (if (s.fv.lang).any (fun ms =>
              ((st ++ p.lemmaAffix.filter (fun b => b ≠ p.boundary)).map
                Lab.byte ++ canonSeq s''.fv : List Lab) =
              (lemmaBytes p st).map Lab.byte ++ ms) then
              some (bytesOf ((st ++ s''.affix.filter
                (fun b => b ≠ p.boundary)).map Lab.byte))
            else none) = none := by
          rw [hlang s hs, List.any_cons, List.any_nil, Bool.or_false]
          refine if_neg (fun hd => ?_)
          have he : ((st ++ p.lemmaAffix.filter (fun b => b ≠ p.boundary)).map
              Lab.byte ++ canonSeq s''.fv : List Lab) =
              (lemmaBytes p st).map Lab.byte ++ canonSeq s.fv :=
            of_decide_eq_true hd
          have he2 : (canonSeq s''.fv : List Lab) = canonSeq s.fv := by
            have := List.append_cancel_left
              (show ((st ++ p.lemmaAffix.filter
                  (fun b => b ≠ p.boundary)).map Lab.byte : List Lab) ++
                  canonSeq s''.fv =
                  (st ++ p.lemmaAffix.filter
                    (fun b => b ≠ p.boundary)).map Lab.byte ++
                    canonSeq s.fv from he)
            exact this
          have hvals : s''.fv.values = s.fv.values :=
            canonSeq_values_eq
              ((hcat s'' hs'').trans (hcat s hs).symm)
              (hwf s hs) (hwf s'' hs'')
              (hfullv s hs)
              (by rw [hcat s hs, ← hcat s'' hs'']; exact hfullv s'' hs'')
              he2
          have hpe : FeatureVector.pyEq s''.fv s.fv = true := by
            unfold FeatureVector.pyEq
            rw [Bool.and_eq_true]
            refine ⟨?_, by simp [hvals]⟩
            rw [hcat s'' hs'', hcat s hs]
            exact catPyEq_refl _
          exact hne (hfvinj s'' hs'' s hs hpe)
        rw [hgn]
    · intro st'' hst'' hne
      rw [filterMap_flatMap_law]
      refine flatMap_eq_nil_all _ _ (fun s'' hs'' => ?_)
      rw [filterMap_singleton]
      have hgn : (if (s.fv.lang).any (fun ms =>
            ((st'' ++ p.lemmaAffix.filter (fun b => b ≠ p.boundary)).map
              Lab.byte ++ canonSeq s''.fv : List Lab) =
            (lemmaBytes p st).map Lab.byte ++ ms) then
            some (bytesOf ((st'' ++ s''.affix.filter
              (fun b => b ≠ p.boundary)).map Lab.byte))
          else none) = none := by
        rw [hlang s hs, List.any_cons, List.any_nil, Bool.or_false]
        refine if_neg (fun hd => ?_)
        have he : ((st'' ++ p.lemmaAffix.filter (fun b => b ≠ p.boundary)).map
            Lab.byte ++ canonSeq s''.fv : List Lab) =
            (lemmaBytes p st).map Lab.byte ++ canonSeq s.fv :=
          of_decide_eq_true hd
        have hsplit := append_bytes_marks_inj (canonSeq_marks s''.fv)
          (canonSeq_marks s.fv) he
        have hst2 : st'' ++ p.lemmaAffix.filter (fun b => b ≠ p.boundary) =
            st ++ p.lemmaAffix.filter (fun b => b ≠ p.boundary) :=
          hsplit.1
        exact hne (List.append_cancel_right hst2)
      rw [hgn]
  exact ⟨hlemz, hinitc, hpyeq, hinfl⟩

/-- Fixture: a rule-free paradigm over Category(num) with boundary "+"
(byte 43), one stem "d" (byte 100), slots "+a"/num=pl and "+c"/num=sg, and
lemma shape "+a"/num=pl. -/
def c1Par : Paradigm :=
  ⟨numCat, 0, [43, 97], fvPl, 43, none, [[100]],
    some (stemsToFormsRel [pSlotA, cSlotC] [[100]]), none⟩

/-- Witness for the round-trip law: on the fixture paradigm, the surface
form of stem "d" in slot "+a" lemmatizes to exactly its lemma surface with
the marker pair ("num", "pl"), that pair rebuilds the slot's vector, and
inflecting the pair reproduces the surface form. -/
theorem c1_witness :
    c1Par.lemmatize (surfaceBytes c1Par [100] pSlotA) =
      [(lemmaBytes c1Par [100], canonPairs pSlotA.fv)] ∧
    FeatureVector.init c1Par.category (canonPairs pSlotA.fv) =
      .ok ⟨c1Par.category, pSlotA.fv.values⟩ ∧
    FeatureVector.pyEq ⟨c1Par.category, pSlotA.fv.values⟩ pSlotA.fv = true ∧
    c1Par.inflect (lemmaBytes c1Par [100]) pSlotA.fv =
      [surfaceBytes c1Par [100] pSlotA] :=
  c1_round_trip c1Par [pSlotA, cSlotC] (by decide) rfl (by decide)
    (by decide) (by decide) (by decide) (by decide) (by decide) (by decide)
    (by decide) [100] (by decide) pSlotA (by decide)

/-! Arc-level model for the lemmatizer's relabeling pass
(`_flip_lemmatizer_feature_labels`, paradigms.py:316-340).  The assertion at
paradigms.py:333 inspects individual arcs of (a copy of) `stems_to_forms`:
states, weights and reachability are irrelevant to it, so an FST is modelled
by its list of arcs.  A label is `none` (epsilon, engine label 0) or
`some l` with `l : Lab` (a byte, engine label below 256, or a generated
feature marker, engine label at least 256). -/

structure Arc where
  ilabel : Option Lab
  olabel : Option Lab
  deriving DecidableEq

/-- Whether a label is one of the category's feature-marker labels: exactly
the generated marker symbols (engine ids at least 256) collected at
paradigms.py:318-325; epsilon and bytes are not. -/
def isMarkL : Option Lab → Bool
  | some (Lab.mark _ _) => true
  | _ => false

/-- The property the assertion at paradigms.py:333 demands of every arc:
an arc whose output label is a feature-marker label has epsilon as its
input label. -/
def FlipSafe (A : List Arc) : Bool :=
  A.all (fun a => !(isMarkL a.olabel) || a.ilabel == none)

/-- Arcs that never move a marker onto the output side from a non-marker
input: an arc with a marker output label either inserts it (epsilon input)
or passes a marker through.  Every rule produced by `_unconditioned_rewrite`
(paradigms.py:342-351) has this shape, since `cdrewrite` over the category's
sigma-star passes the generated feature labels through as identity arcs and
rewrites only byte material. -/
def MarkTransparent (B : List Arc) : Bool :=
  B.all (fun b => !(isMarkL b.olabel) || (b.ilabel == none || isMarkL b.ilabel))

/-- Modelled from the spec: the arcs of a composition.  A composed arc pairs
an arc of the left machine with an arc of the right machine sharing the
matched (non-epsilon) label, or follows an epsilon-output left arc alone, or
an epsilon-input right arc alone.  The pairing ignores states, so this set
contains every arc of the composed machine. -/
def composeArcs (A B : List Arc) : List Arc :=
  A.flatMap (fun a => B.filterMap (fun b =>
    match b.ilabel with
    | none => none
    | some l => if a.olabel = some l then some ⟨a.ilabel, b.olabel⟩ else none))
  ++ A.filterMap (fun a =>
      if a.olabel = none then some ⟨a.ilabel, none⟩ else none)
  ++ B.filterMap (fun b =>
      if b.ilabel = none then some ⟨none, b.olabel⟩ else none)

/-- Modelled from the spec: arcs of `pynini.union(*self._stems)`
(paradigms.py:270), an acceptor over the stems' bytes — every arc carries
the same byte on both sides. -/
def stemArcs (stems : List (List Nat)) : List Arc :=
  stems.flatMap (fun st =>
    st.map (fun b => ⟨some (Lab.byte b), some (Lab.byte b)⟩))

/-- Modelled from the spec: arcs of one slot's term of `shape`
(paradigms.py:251-253) — the byte-acceptor arcs of the slot's stem form
(sigma-star over bytes minus the boundary, paradigms.py:129-139), the
insertion of the affix bytes, and the insertion of the slot vector's marker
acceptor: insertions carry epsilon on the input side. -/
def slotShapeArcs (boundary : Nat) (s : PSlot) : List Arc :=
  (((List.range 256).filter (fun b => b ≠ 0 ∧ b ≠ boundary)).map
    (fun b => ⟨some (Lab.byte b), some (Lab.byte b)⟩))
  ++ s.affix.map (fun b => (⟨none, some (Lab.byte b)⟩ : Arc))
  ++ (canonSeq s.fv).map (fun m => (⟨none, some m⟩ : Arc))

/-- Modelled from the spec: arcs of `self._shape`, the union over the slots
(paradigms.py:251-253). -/
def shapeArcs (boundary : Nat) (slots : List PSlot) : List Arc :=
  slots.flatMap (slotShapeArcs boundary)

/-- Modelled from the spec: arcs of `stems_to_forms` (paradigms.py:268-276):
the stems acceptor composed with the shape, then with each rule in order. -/
def stemsToFormsArcs (boundary : Nat) (slots : List PSlot)
    (stems : List (List Nat)) (rules : List (List Arc)) : List Arc :=
  rules.foldl composeArcs (composeArcs (stemArcs stems)
    (shapeArcs boundary slots))

theorem flipSafe_composeArcs (A B : List Arc) (hA : FlipSafe A = true)
    (hB : MarkTransparent B = true) : FlipSafe (composeArcs A B) = true := by
  unfold FlipSafe at hA ⊢
  unfold MarkTransparent at hB
  rw [List.all_eq_true] at hA ⊢
  rw [List.all_eq_true] at hB
  intro c hc
  unfold composeArcs at hc
  rw [List.append_assoc, List.mem_append, List.mem_append] at hc
  rcases hc with hc | hc | hc
  · obtain ⟨a, ha, hb⟩ := List.mem_flatMap.mp hc
    obtain ⟨b, hbm, hme⟩ := List.mem_filterMap.mp hb
    cases hbl : b.ilabel with
    | none => rw [hbl] at hme; cases hme
    | some l =>
      rw [hbl] at hme
      have hme' : (if a.olabel = some l then
          some (⟨a.ilabel, b.olabel⟩ : Arc) else none) = some c := hme
      by_cases hao : a.olabel = some l
      · rw [if_pos hao] at hme'
        injection hme' with hme'
        subst hme'
        show (!(isMarkL b.olabel) || (a.ilabel == none)) = true
        by_cases hm : isMarkL b.olabel = true
        · have hBb := hB b hbm
          rw [hm] at hBb
          simp only [Bool.not_true, Bool.false_or, Bool.or_eq_true] at hBb
          rcases hBb with hbi | hmi
          · rw [hbl] at hbi; cases hbi
          · have hAa := hA a ha
            rw [hao] at hAa
            have hmo : isMarkL (some l) = true := by rw [← hbl]; exact hmi
            rw [hmo] at hAa
            simp only [Bool.not_true, Bool.false_or] at hAa
            rw [hAa, Bool.or_true]
        · rw [Bool.not_eq_true] at hm
          rw [hm, Bool.not_false, Bool.true_or]
      · rw [if_neg hao] at hme'; cases hme'
  · obtain ⟨a, ha, hme⟩ := List.mem_filterMap.mp hc
    by_cases hao : a.olabel = none
    · rw [if_pos hao] at hme
      injection hme with hme
      subst hme
      simp [isMarkL]
    · rw [if_neg hao] at hme; cases hme
  · obtain ⟨b, hbm, hme⟩ := List.mem_filterMap.mp hc
    by_cases hbi : b.ilabel = none
    · rw [if_pos hbi] at hme
      injection hme with hme
      subst hme
      simp
    · rw [if_neg hbi] at hme; cases hme

theorem flipSafe_foldl (rules : List (List Arc)) (A : List Arc)
    (hA : FlipSafe A = true)
    (hr : ∀ r ∈ rules, MarkTransparent r = true) :
    FlipSafe (rules.foldl composeArcs A) = true := by
  induction rules generalizing A with
  | nil => exact hA
  | cons r rs ih =>
    exact ih _ (flipSafe_composeArcs A r hA (hr r (List.mem_cons_self _ _)))
      (fun r' h => hr r' (List.mem_cons_of_mem _ h))

theorem flipSafe_stemArcs (stems : List (List Nat)) :
    FlipSafe (stemArcs stems) = true := by
  unfold FlipSafe stemArcs
  rw [List.all_eq_true]
  intro a ha
  obtain ⟨st, -, hm⟩ := List.mem_flatMap.mp ha
  obtain ⟨b, -, hb⟩ := List.mem_map.mp hm
  rw [← hb]
  simp [isMarkL]

theorem markTransparent_shapeArcs (boundary : Nat) (slots : List PSlot) :
    MarkTransparent (shapeArcs boundary slots) = true := by
  unfold MarkTransparent shapeArcs
  rw [List.all_eq_true]
  intro a ha
  obtain ⟨s, -, hm⟩ := List.mem_flatMap.mp ha
  unfold slotShapeArcs at hm
  rw [List.append_assoc, List.mem_append, List.mem_append] at hm
  rcases hm with hm | hm | hm
  · obtain ⟨b, -, hb⟩ := List.mem_map.mp hm
    rw [← hb]
    simp [isMarkL]
  · obtain ⟨b, -, hb⟩ := List.mem_map.mp hm
    rw [← hb]
    simp [isMarkL]
  · obtain ⟨m, -, hb⟩ := List.mem_map.mp hm
    rw [← hb]
    simp

/-- C10: in every paradigm's `stems_to_forms` automaton — the stems
acceptor composed with the shape and then with the rules, each rule a
context-independent rewrite that passes the generated feature labels
through — every arc whose output label is one of the feature-marker labels
has epsilon as its input label, so the assertion in the lemmatizer's
relabeling pass (paradigms.py:333) holds of every arc and the relabeling
is total. -/
theorem c10_flip_assertion_safe (boundary : Nat) (slots : List PSlot)
    (stems : List (List Nat)) (rules : List (List Arc))
    (hr : ∀ r ∈ rules, MarkTransparent r = true) :
    FlipSafe (stemsToFormsArcs boundary slots stems rules) = true := by
  unfold stemsToFormsArcs
  exact flipSafe_foldl rules _
    (flipSafe_composeArcs _ _ (flipSafe_stemArcs stems)
      (markTransparent_shapeArcs boundary slots))
    hr

/-- Witness for the relabeling safety: a concrete paradigm — boundary "+",
one stem "d", one slot "+a"/num=pl — with one rule rewriting byte "a" to
byte "b" while passing the num marker through. -/
theorem c10_witness :
    (∀ r ∈ [[(⟨some (Lab.byte 97), some (Lab.byte 98)⟩ : Arc),
        ⟨some (Lab.mark "num" "pl"), some (Lab.mark "num" "pl")⟩]],
      MarkTransparent r = true) ∧
    FlipSafe (stemsToFormsArcs 43 [pSlotA] [[100]]
      [[(⟨some (Lab.byte 97), some (Lab.byte 98)⟩ : Arc),
        ⟨some (Lab.mark "num" "pl"), some (Lab.mark "num" "pl")⟩]]) = true :=
  ⟨by decide,
    c10_flip_assertion_safe 43 [pSlotA] [[100]]
      [[⟨some (Lab.byte 97), some (Lab.byte 98)⟩,
        ⟨some (Lab.mark "num" "pl"), some (Lab.mark "num" "pl")⟩]]
      (by decide)⟩

end Pynini
